import Mathlib

/-!
Verification development for the polymorph geometry kernel.

The Rust sources (src/cubic.rs, src/rounded_polygon.rs, src/measured_polygon.rs,
src/mapper.rs, src/morph.rs, src/util.rs, src/geometry.rs, src/measurer.rs,
src/feature.rs) are shallowly embedded over exact arithmetic: the `f32` values
of the code are modelled as rationals wherever the code computes field
operations on its inputs, and as reals in the corner-rounding engine, which
takes square roots.  Rust panics (assert failures, out-of-bounds indexing,
arithmetic underflow) are modelled by `Option`/`Except` results.
-/

set_option autoImplicit false

namespace Polymorph

/-- Embeds the 2-D point/vector types of geometry.rs (`Point` and `Vector` are
both euclid 2-D pairs of `f32`; both are modelled by one pair type over a
field). -/
structure Pt (α : Type) where
  x : α
  y : α
  deriving DecidableEq, Repr

instance {α : Type} [LinearOrderedField α] : Add (Pt α) :=
  ⟨fun p q => ⟨p.x + q.x, p.y + q.y⟩⟩

instance {α : Type} [LinearOrderedField α] : Sub (Pt α) :=
  ⟨fun p q => ⟨p.x - q.x, p.y - q.y⟩⟩

instance {α : Type} [LinearOrderedField α] : Neg (Pt α) :=
  ⟨fun p => ⟨-p.x, -p.y⟩⟩

/-- Scalar multiplication of a point/vector, as in euclid's `Mul<f32>`. -/
instance {α : Type} [LinearOrderedField α] : HMul (Pt α) α (Pt α) :=
  ⟨fun p k => ⟨p.x * k, p.y * k⟩⟩

/-- Scalar division of a point/vector, as in euclid's `Div<f32>`. -/
instance {α : Type} [LinearOrderedField α] : HDiv (Pt α) α (Pt α) :=
  ⟨fun p k => ⟨p.x / k, p.y / k⟩⟩

/-- Dot product, as in euclid's `Vector2D::dot`. -/
def Pt.dot {α : Type} [LinearOrderedField α] (p q : Pt α) : α :=
  p.x * q.x + p.y * q.y

/-- Embeds euclid's `lerp`: `self + (other - self) * t`. -/
def Pt.lerp {α : Type} [LinearOrderedField α] (p q : Pt α) (t : α) : Pt α :=
  p + (q - p) * t

/-- Embeds `rotate90` of geometry.rs: `(x, y) -> (-y, x)`. -/
def Pt.rotate90 {α : Type} [LinearOrderedField α] (p : Pt α) : Pt α :=
  ⟨-p.y, p.x⟩

def Pt.zero {α : Type} [LinearOrderedField α] : Pt α := ⟨0, 0⟩

@[simp] lemma Pt.add_x {α : Type} [LinearOrderedField α] (p q : Pt α) :
    (p + q).x = p.x + q.x := rfl

@[simp] lemma Pt.add_y {α : Type} [LinearOrderedField α] (p q : Pt α) :
    (p + q).y = p.y + q.y := rfl

@[simp] lemma Pt.sub_x {α : Type} [LinearOrderedField α] (p q : Pt α) :
    (p - q).x = p.x - q.x := rfl

@[simp] lemma Pt.sub_y {α : Type} [LinearOrderedField α] (p q : Pt α) :
    (p - q).y = p.y - q.y := rfl

@[simp] lemma Pt.neg_x {α : Type} [LinearOrderedField α] (p : Pt α) : (-p).x = -p.x := rfl

@[simp] lemma Pt.neg_y {α : Type} [LinearOrderedField α] (p : Pt α) : (-p).y = -p.y := rfl

@[simp] lemma Pt.smul_x {α : Type} [LinearOrderedField α] (p : Pt α) (k : α) :
    (p * k).x = p.x * k := rfl

@[simp] lemma Pt.smul_y {α : Type} [LinearOrderedField α] (p : Pt α) (k : α) :
    (p * k).y = p.y * k := rfl

@[simp] lemma Pt.sdiv_x {α : Type} [LinearOrderedField α] (p : Pt α) (k : α) :
    (p / k).x = p.x / k := rfl

@[simp] lemma Pt.sdiv_y {α : Type} [LinearOrderedField α] (p : Pt α) (k : α) :
    (p / k).y = p.y / k := rfl

/-- `DISTANCE_EPSILON = 1e-4` of geometry.rs. -/
def distanceEpsilon (α : Type) [LinearOrderedField α] : α := 1 / 10000

/-- `ANGLE_EPSILON = 1e-6` of geometry.rs. -/
def angleEpsilon (α : Type) [LinearOrderedField α] : α := 1 / 1000000

/-- Embeds the `Cubic` of cubic.rs: four points `[a0, c0, c1, a1]` (two anchors
and two control points); the backing array is modelled by four fields in array
order. -/
structure Cubic (α : Type) where
  a0 : Pt α
  c0 : Pt α
  c1 : Pt α
  a1 : Pt α
  deriving DecidableEq, Repr

/-- Embeds `Cubic::straight_line`. -/
def Cubic.straightLine {α : Type} [LinearOrderedField α] (s e : Pt α) : Cubic α :=
  ⟨s, s.lerp e (1 / 3), s.lerp e (2 / 3), e⟩

/-- Embeds `Cubic::reversed` (the point array reversed). -/
def Cubic.reversed {α : Type} [LinearOrderedField α] (c : Cubic α) : Cubic α :=
  ⟨c.a1, c.c1, c.c0, c.a0⟩

/-- Embeds `Cubic::point_on_curve` (Bernstein form). -/
def Cubic.pointOnCurve {α : Type} [LinearOrderedField α] (c : Cubic α) (t : α) : Pt α :=
  let u := 1 - t
  c.a0 * (u * u * u) + c.c0 * (3 * t * u * u) + c.c1 * (3 * t * t * u) + c.a1 * (t * t * t)

/-- Embeds `Cubic::split`: both halves reuse the single evaluation
`point_on_curve t` as their shared anchor, exactly as the source does. -/
def Cubic.split {α : Type} [LinearOrderedField α] (c : Cubic α) (t : α) : Cubic α × Cubic α :=
  let u := 1 - t
  let pointOnCurve := c.pointOnCurve t
  (⟨c.a0,
    c.a0 * u + c.c0 * t,
    c.c1 * (t * t) + c.a0 * (u * u) + c.c0 * (2 * u * t),
    pointOnCurve⟩,
   ⟨pointOnCurve,
    c.a1 * (t * t) + c.c0 * (u * u) + c.c1 * (2 * u * t),
    c.c1 * u + c.a1 * t,
    c.a1⟩)

/-- Embeds `Cubic::zero_length`: both anchors coincide within
`DISTANCE_EPSILON` in both coordinates (over the exact rationals). -/
def Cubic.zeroLength (c : Cubic ℚ) : Bool :=
  decide (|c.a0.x - c.a1.x| < distanceEpsilon ℚ ∧ |c.a0.y - c.a1.y| < distanceEpsilon ℚ)

instance {α : Type} [LinearOrderedField α] : Inhabited (Pt α) := ⟨⟨0, 0⟩⟩

instance {α : Type} [LinearOrderedField α] : Inhabited (Cubic α) :=
  ⟨⟨default, default, default, default⟩⟩

/-- C6: for every cubic `c` and `t ∈ [0,1]`, `c.split t` returns `(l, r)` with
`l.a1`, `r.a0` and the Bernstein evaluation `c.point_on_curve t` all exactly
equal (the source computes the evaluation once and copies it into both
anchors). -/
theorem C6_split_shares_point_on_curve (c : Cubic ℚ) (t : ℚ)
    (h0 : 0 ≤ t) (h1 : t ≤ 1) :
    (c.split t).1.a1 = c.pointOnCurve t ∧ (c.split t).2.a0 = c.pointOnCurve t :=
  ⟨rfl, rfl⟩

/-- Witness for C6 at `t = 1/2` on a concrete cubic. -/
theorem C6_split_shares_point_on_curve_witness :
    ((Cubic.straightLine (⟨0, 0⟩ : Pt ℚ) ⟨1, 1⟩).split (1 / 2)).1.a1 =
      (Cubic.straightLine (⟨0, 0⟩ : Pt ℚ) ⟨1, 1⟩).pointOnCurve (1 / 2) ∧
    ((Cubic.straightLine (⟨0, 0⟩ : Pt ℚ) ⟨1, 1⟩).split (1 / 2)).2.a0 =
      (Cubic.straightLine (⟨0, 0⟩ : Pt ℚ) ⟨1, 1⟩).pointOnCurve (1 / 2) :=
  C6_split_shares_point_on_curve _ _ (by norm_num) (by norm_num)

/-- Embeds `FeatureType` of feature.rs. -/
inductive FeatureType where
  | edge : FeatureType
  | corner (convex : Bool) : FeatureType
  deriving DecidableEq, Repr

/-- Embeds `Feature` of feature.rs: a kind plus a list of cubics. -/
structure Feature where
  ty : FeatureType
  cubics : List (Cubic ℚ)
  deriving DecidableEq, Repr

/-- Embeds `Feature::edge`. -/
def Feature.edge (cubics : List (Cubic ℚ)) : Feature := ⟨.edge, cubics⟩

/-- Embeds `Feature::corner`. -/
def Feature.corner (cubics : List (Cubic ℚ)) (convex : Bool) : Feature :=
  ⟨.corner convex, cubics⟩

/-- Embeds `Feature::is_corner`. -/
def Feature.isCorner (f : Feature) : Bool :=
  match f.ty with
  | .corner _ => true
  | .edge => false

/-- State of the first/last mechanism in the cubic loop of
`RoundedPolygon::new`: the recorded first and last non-zero-length cubics and
the output list accumulated so far. -/
structure StitchState where
  firstCubic : Option (Cubic ℚ)
  lastCubic : Option (Cubic ℚ)
  cubics : List (Cubic ℚ)
  deriving DecidableEq, Repr

/-- Embeds one iteration of the inner cubic loop of `RoundedPolygon::new`: a
non-zero-length cubic pushes the pending `lastCubic` and takes its place
(recording `firstCubic` if still unset); a zero-length cubic is dropped and
the pending cubic's trailing anchor is rewritten to the dropped one's. -/
def stitchStep (st : StitchState) (cubic : Cubic ℚ) : StitchState :=
  if !cubic.zeroLength then
    { firstCubic := match st.firstCubic with | none => some cubic | some f => some f
      lastCubic := some cubic
      cubics := match st.lastCubic with | none => st.cubics | some l => st.cubics ++ [l] }
  else
    { st with
      lastCubic := match st.lastCubic with | none => none | some l => some { l with a1 := cubic.a1 } }

/-- Embeds the cubic stream iterated by `RoundedPolygon::new`: when the first
feature has exactly 3 cubics, its middle cubic is split at `t = 1/2` and the
iteration starts at `[trailing half, third cubic]`, visits the remaining
features, and finishes with `[first cubic, leading half]`; otherwise the
features' cubics are visited in order. -/
def featureStream (features : List Feature) : List (Cubic ℚ) :=
  match features with
  | [] => []
  | f0 :: rest =>
    if f0.cubics.length = 3 then
      let s := (f0.cubics.getD 1 default).split (1 / 2)
      (s.2 :: f0.cubics.drop 2) ++ rest.flatMap (·.cubics) ++ (f0.cubics.take 1 ++ [s.1])
    else
      (f0 :: rest).flatMap (·.cubics)

/-- Embeds `RoundedPolygon` of rounded_polygon.rs. -/
structure RoundedPolygon where
  features : List Feature
  center : Pt ℚ
  cubics : List (Cubic ℚ)
  deriving DecidableEq, Repr

/-- Embeds `RoundedPolygon::new`: runs the stitching loop over the feature
stream, then closes the output with a final cubic that reuses the last kept
cubic's first three points but ends exactly at the first kept cubic's leading
anchor; an empty stream yields the single point-cubic at the center. -/
def RoundedPolygon.new (features : List Feature) (center : Pt ℚ) : RoundedPolygon :=
  let st := (featureStream features).foldl stitchStep ⟨none, none, []⟩
  let cubics :=
    match st.lastCubic, st.firstCubic with
    | some lastCubic, some firstCubic =>
      st.cubics ++ [⟨lastCubic.a0, lastCubic.c0, lastCubic.c1, firstCubic.a0⟩]
    | _, _ => [⟨center, center, center, center⟩]
  ⟨features, center, cubics⟩

/-- Invariant of the stitching loop: before any cubic is kept everything is
empty, and after the first kept cubic the leading anchor of whatever stands
(or will stand) at the head of the output equals its leading anchor. -/
def StitchInv (st : StitchState) : Prop :=
  (st.firstCubic = none → st.lastCubic = none ∧ st.cubics = []) ∧
  ∀ f, st.firstCubic = some f →
    (∃ l, st.lastCubic = some l ∧ l.a0 = f.a0 ∧ st.cubics = []) ∨
    (st.lastCubic ≠ none ∧ st.cubics ≠ [] ∧ (st.cubics.headD default).a0 = f.a0)

lemma stitchStep_inv (st : StitchState) (c : Cubic ℚ) (h : StitchInv st) :
    StitchInv (stitchStep st c) := by
  rcases st with ⟨fst, lst, acc⟩
  obtain ⟨hnone, hsome⟩ := h
  cases hz : c.zeroLength with
  | true =>
    cases fst with
    | none =>
      obtain ⟨h1, h2⟩ := hnone rfl
      subst h1 h2
      exact ⟨fun _ => ⟨by simp [stitchStep, hz], by simp [stitchStep, hz]⟩, by
        intro f hf
        simp [stitchStep, hz] at hf⟩
    | some f0 =>
      refine ⟨by intro hc; simp [stitchStep, hz] at hc, ?_⟩
      intro f hf
      have hf0 : f = f0 := by simpa [stitchStep, hz] using hf.symm
      subst hf0
      rcases hsome f rfl with ⟨l, hl, ha, hacc⟩ | ⟨hl, hacc, hhead⟩
      · obtain rfl : lst = some l := hl
        subst hacc
        exact Or.inl ⟨{ l with a1 := c.a1 }, by simp [stitchStep, hz], ha, by
          simp [stitchStep, hz]⟩
      · rcases Option.ne_none_iff_exists'.mp hl with ⟨l, hleq⟩
        subst hleq
        exact Or.inr ⟨by simp [stitchStep, hz], by simpa [stitchStep, hz] using hacc,
          by simpa [stitchStep, hz] using hhead⟩
  | false =>
    cases fst with
    | none =>
      obtain ⟨h1, h2⟩ := hnone rfl
      subst h1 h2
      refine ⟨by intro hc; simp [stitchStep, hz] at hc, ?_⟩
      intro f hf
      have hfc : f = c := by simpa [stitchStep, hz] using hf.symm
      exact Or.inl ⟨c, by simp [stitchStep, hz], by rw [hfc], by simp [stitchStep, hz]⟩
    | some f0 =>
      refine ⟨by intro hc; simp [stitchStep, hz] at hc, ?_⟩
      intro f hf
      have hf0 : f = f0 := by simpa [stitchStep, hz] using hf.symm
      subst hf0
      rcases hsome f rfl with ⟨l, hl, ha, hacc⟩ | ⟨hl, hacc, hhead⟩
      · obtain rfl : lst = some l := hl
        subst hacc
        exact Or.inr ⟨by simp [stitchStep, hz], by simp [stitchStep, hz],
          by simp [stitchStep, hz, ha]⟩
      · rcases Option.ne_none_iff_exists'.mp hl with ⟨l, hleq⟩
        subst hleq
        refine Or.inr ⟨by simp [stitchStep, hz], by simp [stitchStep, hz], ?_⟩
        rcases acc with _ | ⟨a, acc⟩
        · exact absurd rfl hacc
        · simpa [stitchStep, hz] using hhead

lemma stitchFold_inv (l : List (Cubic ℚ)) (st : StitchState) (h : StitchInv st) :
    StitchInv (l.foldl stitchStep st) := by
  induction l generalizing st with
  | nil => exact h
  | cons c rest ih => exact ih _ (stitchStep_inv st c h)

/-- C2: for every feature list and center, the flattened cubics list of
`RoundedPolygon::new` is nonempty and closed: the final cubic's trailing
anchor is exactly (the same copied value as) the first cubic's leading
anchor. -/
theorem C2_rounded_polygon_closed (features : List Feature) (center : Pt ℚ) :
    (RoundedPolygon.new features center).cubics ≠ [] ∧
      (((RoundedPolygon.new features center).cubics.getLastD default).a1 =
        ((RoundedPolygon.new features center).cubics.headD default).a0) := by
  obtain ⟨hnone, hsome⟩ := stitchFold_inv (featureStream features) ⟨none, none, []⟩
    ⟨fun _ => ⟨rfl, rfl⟩, by intro f hf; cases hf⟩
  rcases hst : (featureStream features).foldl stitchStep ⟨none, none, []⟩ with ⟨fst, lst, acc⟩
  rw [hst] at hnone hsome
  simp only at hnone hsome
  cases fst with
  | none =>
    obtain ⟨h1, h2⟩ := hnone rfl
    subst h1 h2
    have hcub : (RoundedPolygon.new features center).cubics =
        [⟨center, center, center, center⟩] := by
      simp only [RoundedPolygon.new, hst]
    rw [hcub]
    simp
  | some f =>
    rcases hsome f rfl with ⟨l, hl, ha, hacc⟩ | ⟨hl, hacc, hhead⟩
    · subst hl hacc
      have hcub : (RoundedPolygon.new features center).cubics =
          [⟨l.a0, l.c0, l.c1, f.a0⟩] := by
        simp only [RoundedPolygon.new, hst]
        rfl
      rw [hcub]
      simp [ha]
    · rcases Option.ne_none_iff_exists'.mp hl with ⟨l, hleq⟩
      subst hleq
      rcases acc with _ | ⟨a, acc⟩
      · exact absurd rfl hacc
      · simp only [List.headD_cons] at hhead
        have hcub : (RoundedPolygon.new features center).cubics =
            (a :: acc) ++ [⟨l.a0, l.c0, l.c1, f.a0⟩] := by
          simp only [RoundedPolygon.new, hst]
        rw [hcub]
        refine ⟨by simp, ?_⟩
        rw [List.getLastD_eq_getLast?, List.getLast?_concat]
        simp [hhead]

lemma stitchFold_nonzero (l : List (Cubic ℚ)) (f lc : Cubic ℚ) (acc : List (Cubic ℚ))
    (h : ∀ c ∈ l, c.zeroLength = false) :
    l.foldl stitchStep ⟨some f, some lc, acc⟩ =
      ⟨some f, some (l.getLastD lc), acc ++ (lc :: l).dropLast⟩ := by
  induction l generalizing lc acc with
  | nil => simp
  | cons c rest ih =>
    have hc : c.zeroLength = false := h c (by simp)
    have hstep : stitchStep ⟨some f, some lc, acc⟩ c = ⟨some f, some c, acc ++ [lc]⟩ := by
      simp [stitchStep, hc]
    rw [List.foldl_cons, hstep, ih c (acc ++ [lc]) (fun x hx => h x (by simp [hx]))]
    cases rest with
    | nil => simp
    | cons y ys =>
      have hz : (y :: ys).getLast? = some ((y :: ys).getLast (by simp)) :=
        List.getLast?_eq_getLast _ _
      simp [hz]

lemma stitchFold_nonzero_start (c : Cubic ℚ) (rest : List (Cubic ℚ))
    (h : ∀ x ∈ c :: rest, x.zeroLength = false) :
    (c :: rest).foldl stitchStep ⟨none, none, []⟩ =
      ⟨some c, some (rest.getLastD c), (c :: rest).dropLast⟩ := by
  have hc : c.zeroLength = false := h c (by simp)
  have hstep : stitchStep ⟨none, none, []⟩ c = ⟨some c, some c, []⟩ := by
    simp [stitchStep, hc]
  rw [List.foldl_cons, hstep, stitchFold_nonzero rest c c []
    (fun x hx => h x (by simp [hx]))]
  simp

/-- C8: when the first feature has exactly 3 cubics (a rounded corner whose
cubics, and the two halves of its middle cubic, all have non-zero length), the
flattened list of `RoundedPolygon::new` starts with the trailing half of the
middle cubic split at `t = 1/2` (so its leading anchor is the middle cubic's
point at `t = 1/2`), continues through the remaining features, and ends with
the feature's first cubic followed by the leading half; the stored features
keep the original unsplit cubics. -/
theorem C8_first_feature_split (f0 : Feature) (rest : List Feature) (center : Pt ℚ)
    (k0 k1 k2 : Cubic ℚ)
    (hcub : f0.cubics = [k0, k1, k2])
    (hnz : ∀ f ∈ f0 :: rest, ∀ c ∈ f.cubics, c.zeroLength = false)
    (hs1 : ((k1.split (1 / 2)).1).zeroLength = false)
    (hs2 : ((k1.split (1 / 2)).2).zeroLength = false) :
    (RoundedPolygon.new (f0 :: rest) center).cubics =
        (k1.split (1 / 2)).2 :: k2 ::
          (rest.flatMap (fun f => f.cubics) ++ [k0, (k1.split (1 / 2)).1]) ∧
      ((RoundedPolygon.new (f0 :: rest) center).cubics.headD default).a0 =
        k1.pointOnCurve (1 / 2) ∧
      (RoundedPolygon.new (f0 :: rest) center).features = f0 :: rest := by
  have hstream : featureStream (f0 :: rest) =
      (k1.split (1 / 2)).2 :: k2 ::
        (rest.flatMap (fun f => f.cubics) ++ [k0, (k1.split (1 / 2)).1]) := by
    simp [featureStream, hcub]
  have hall : ∀ x ∈ featureStream (f0 :: rest), x.zeroLength = false := by
    rw [hstream]
    intro x hx
    simp only [List.mem_cons, List.mem_append, List.mem_flatMap, List.not_mem_nil,
      or_false] at hx
    rcases hx with rfl | rfl | ⟨f, hf, hc⟩ | rfl | rfl
    · exact hs2
    · exact hnz f0 (by simp) x (by simp [hcub])
    · exact hnz f (by simp [hf]) x hc
    · exact hnz f0 (by simp) x (by simp [hcub])
    · exact hs1
  have hfold := stitchFold_nonzero_start ((k1.split (1 / 2)).2)
    (k2 :: (rest.flatMap (fun f => f.cubics) ++ [k0, (k1.split (1 / 2)).1]))
    (by rw [← hstream]; exact hall)
  have hlast : (k2 :: (rest.flatMap (fun f => f.cubics) ++
      [k0, (k1.split (1 / 2)).1])).getLastD (k1.split (1 / 2)).2 = (k1.split (1 / 2)).1 := by
    rw [List.getLastD_eq_getLast?]
    have hsplit : k2 :: (rest.flatMap (fun f => f.cubics) ++ [k0, (k1.split (1 / 2)).1]) =
        (k2 :: (rest.flatMap (fun f => f.cubics) ++ [k0])) ++ [(k1.split (1 / 2)).1] := by
      simp
    rw [hsplit, List.getLast?_concat]
    rfl
  have hdrop : ((k1.split (1 / 2)).2 :: k2 :: (rest.flatMap (fun f => f.cubics) ++
      [k0, (k1.split (1 / 2)).1])).dropLast =
      (k1.split (1 / 2)).2 :: k2 :: (rest.flatMap (fun f => f.cubics) ++ [k0]) := by
    have hsplit : (k1.split (1 / 2)).2 :: k2 :: (rest.flatMap (fun f => f.cubics) ++
        [k0, (k1.split (1 / 2)).1]) =
        ((k1.split (1 / 2)).2 :: k2 :: (rest.flatMap (fun f => f.cubics) ++ [k0])) ++
          [(k1.split (1 / 2)).1] := by
      simp
    rw [hsplit, List.dropLast_concat]
  have hcubics : (RoundedPolygon.new (f0 :: rest) center).cubics =
      ((k1.split (1 / 2)).2 :: k2 :: (rest.flatMap (fun f => f.cubics) ++ [k0])) ++
        [⟨(k1.split (1 / 2)).1.a0, (k1.split (1 / 2)).1.c0, (k1.split (1 / 2)).1.c1,
          (k1.split (1 / 2)).2.a0⟩] := by
    simp only [RoundedPolygon.new, hstream, hfold, hlast, hdrop]
  have hstitched : (⟨(k1.split (1 / 2)).1.a0, (k1.split (1 / 2)).1.c0,
      (k1.split (1 / 2)).1.c1, (k1.split (1 / 2)).2.a0⟩ : Cubic ℚ) = (k1.split (1 / 2)).1 :=
    rfl
  rw [hstitched] at hcubics
  refine ⟨?_, ?_, rfl⟩
  · rw [hcubics]; simp
  · rw [hcubics]; rfl

/-- Concrete corner cubics for exercising the first-feature split. -/
def wK0 : Cubic ℚ := Cubic.straightLine ⟨0, 0⟩ ⟨1, 0⟩

def wK1 : Cubic ℚ := Cubic.straightLine ⟨1, 0⟩ ⟨1, 1⟩

def wK2 : Cubic ℚ := Cubic.straightLine ⟨1, 1⟩ ⟨0, 1⟩

def wCorner : Feature := Feature.corner [wK0, wK1, wK2] true

/-- Witness for C8 on a concrete one-corner feature list. -/
theorem C8_first_feature_split_witness :
    (RoundedPolygon.new [wCorner] ⟨0, 0⟩).cubics =
        (wK1.split (1 / 2)).2 :: wK2 ::
          (([] : List Feature).flatMap (fun f => f.cubics) ++ [wK0, (wK1.split (1 / 2)).1]) ∧
      ((RoundedPolygon.new [wCorner] ⟨0, 0⟩).cubics.headD default).a0 =
        wK1.pointOnCurve (1 / 2) ∧
      (RoundedPolygon.new [wCorner] ⟨0, 0⟩).features = [wCorner] :=
  C8_first_feature_split wCorner [] ⟨0, 0⟩ wK0 wK1 wK2 rfl
    (by
      intro f hf c hc
      have hfw : f = wCorner := by simpa using hf
      subst hfw
      have hc' : c = wK0 ∨ c = wK1 ∨ c = wK2 := by
        simpa [wCorner, Feature.corner] using hc
      rcases hc' with rfl | rfl | rfl <;>
        norm_num [Cubic.zeroLength, wK0, wK1, wK2, Cubic.straightLine, Pt.lerp,
          distanceEpsilon])
    (by
      norm_num [Cubic.zeroLength, Cubic.split, Cubic.pointOnCurve, wK1,
        Cubic.straightLine, Pt.lerp, distanceEpsilon, abs_of_nonneg, abs_of_nonpos])
    (by
      norm_num [Cubic.zeroLength, Cubic.split, Cubic.pointOnCurve, wK1,
        Cubic.straightLine, Pt.lerp, distanceEpsilon, abs_of_nonneg, abs_of_nonpos])

/-- Modelled from the spec: the helper `positive_modulo(x, mod)` of util.rs is
used throughout the sources but its definition is not among the provided
files; section 9 of the spec describes it as the positive modulo
(`((x % mod) + mod) % mod`), i.e. `x - mod * floor (x / mod)`. -/
def posMod (x m : ℚ) : ℚ := x - m * ⌊x / m⌋

lemma posMod_one (x : ℚ) : posMod x 1 = Int.fract x := by
  unfold posMod Int.fract
  rw [div_one, one_mul]

/-- Embeds `progress_in_range` of util.rs. -/
def progressInRange (progress progressFrom progressTo : ℚ) : Bool :=
  if progressTo ≥ progressFrom then
    decide (progressFrom ≤ progress ∧ progress ≤ progressTo)
  else
    decide (progress ≥ progressFrom ∨ progress ≤ progressTo)

/-- Embeds `progress_distance` of util.rs: distance on the circle. -/
def progressDistance (p1 p2 : ℚ) : ℚ :=
  min |p1 - p2| (1 - |p1 - p2|)

/-- Embeds `MeasuredCubic` of measured_polygon.rs. -/
structure MeasuredCubic where
  cubic : Cubic ℚ
  startOutlineProgress : ℚ
  endOutlineProgress : ℚ
  measuredSize : ℚ
  deriving DecidableEq, Repr

instance : Inhabited MeasuredCubic := ⟨⟨default, 0, 0, 0⟩⟩

/-- Embeds `MeasuredCubic::new`; the Rust code is generic over `T: Measurer`,
modelled by passing the measurer's `measure_cubic` function. -/
def MeasuredCubic.new (measure : Cubic ℚ → ℚ) (cubic : Cubic ℚ)
    (startOutlineProgress endOutlineProgress : ℚ) : MeasuredCubic :=
  ⟨cubic, startOutlineProgress, endOutlineProgress, measure cubic⟩

/-- Embeds `MeasuredCubic::cut_at_progress` (measurer passed as its two
functions); the `assert!` that the cut parameter `t` lies in `[0,1]` is
modelled by `none`. -/
def MeasuredCubic.cutAtProgress (mc : MeasuredCubic) (measure : Cubic ℚ → ℚ)
    (findCubicCutPoint : Cubic ℚ → ℚ → ℚ) (cutOutlineProgress : ℚ) :
    Option (MeasuredCubic × MeasuredCubic) :=
  let boundedCutOutlineProgress :=
    min (max cutOutlineProgress mc.startOutlineProgress) mc.endOutlineProgress
  let outlineProgressSize := mc.endOutlineProgress - mc.startOutlineProgress
  let progressFromStart := boundedCutOutlineProgress - mc.startOutlineProgress
  let relativeProgress := progressFromStart / outlineProgressSize
  let t := findCubicCutPoint mc.cubic (relativeProgress * mc.measuredSize)
  if 0 ≤ t ∧ t ≤ 1 then
    some (MeasuredCubic.new measure (mc.cubic.split t).1
            mc.startOutlineProgress boundedCutOutlineProgress,
          MeasuredCubic.new measure (mc.cubic.split t).2
            boundedCutOutlineProgress mc.endOutlineProgress)
  else none

/-- Embeds `ProgressableFeature` of measured_polygon.rs. -/
structure ProgressableFeature where
  progress : ℚ
  feature : Feature
  deriving DecidableEq, Repr

/-- Embeds `MeasuredPolygon` of measured_polygon.rs; the stored measurer
(generic `T: Measurer` in Rust) is modelled by its two functions. -/
structure MeasuredPolygon where
  measure : Cubic ℚ → ℚ
  findCubicCutPoint : Cubic ℚ → ℚ → ℚ
  cubics : List MeasuredCubic
  features : List ProgressableFeature

/-- Embeds the filtering loop of `MeasuredPolygon::new`: cubic `index` is kept
iff its outline-progress interval is wider than `DISTANCE_EPSILON`, and each
kept cubic starts exactly where the previously kept one ended. -/
def buildMeasured (measure : Cubic ℚ → ℚ) (op : List ℚ) (startP : ℚ) (index : ℕ) :
    List (Cubic ℚ) → List MeasuredCubic
  | [] => []
  | c :: rest =>
    if op.getD (index + 1) 0 - op.getD index 0 > distanceEpsilon ℚ then
      MeasuredCubic.new measure c startP (op.getD (index + 1) 0) ::
        buildMeasured measure op (op.getD (index + 1) 0) (index + 1) rest
    else
      buildMeasured measure op startP (index + 1) rest

/-- Embeds the final write `measured_cubics[i].end_outline_progress = 1.0` of
`MeasuredPolygon::new` (`i` the last index). -/
def setLastEnd : List MeasuredCubic → List MeasuredCubic
  | [] => []
  | [mc] => [{ mc with endOutlineProgress := 1 }]
  | mc :: rest => mc :: setLastEnd rest

/-- Embeds `MeasuredPolygon::new`; the arithmetic-underflow panic (and
subsequent out-of-bounds indexing) on an empty filtered list is modelled by
`none`. -/
def MeasuredPolygon.new (measure : Cubic ℚ → ℚ) (findCubicCutPoint : Cubic ℚ → ℚ → ℚ)
    (features : List ProgressableFeature) (cubics : List (Cubic ℚ))
    (outlineProgress : List ℚ) : Option MeasuredPolygon :=
  match buildMeasured measure outlineProgress 0 0 cubics with
  | [] => none
  | mc :: rest => some ⟨measure, findCubicCutPoint, setLastEnd (mc :: rest), features⟩

/-- Embeds the cubic/feature extraction loop of
`MeasuredPolygon::measure_polygon`: flattens the features' cubics in order and
records, for each corner feature, the flat index of its central cubic
(`feature.cubics.len() / 2`). -/
def extractCubics (features : List Feature) : List (Cubic ℚ) × List (Feature × ℕ) :=
  features.foldl
    (fun acc f =>
      (acc.1 ++ f.cubics,
       if f.isCorner then acc.2 ++ [(f, acc.1.length + f.cubics.length / 2)] else acc.2))
    ([], [])

/-- Embeds the cumulative measure fold of `MeasuredPolygon::measure_polygon`
(starting from the one-element list `[0.0]`). -/
def cumulativeMeasures (measure : Cubic ℚ → ℚ) (t : ℚ) : List (Cubic ℚ) → List ℚ
  | [] => [t]
  | c :: rest => t :: cumulativeMeasures measure (t + measure c) rest

/-- Embeds `MeasuredPolygon::measure_polygon`. -/
def measurePolygon (measure : Cubic ℚ → ℚ) (findCubicCutPoint : Cubic ℚ → ℚ → ℚ)
    (polygon : RoundedPolygon) : Option MeasuredPolygon :=
  let extracted := extractCubics polygon.features
  let measureResults := cumulativeMeasures measure 0 extracted.1
  let totalMeasure := measureResults.getLastD 0
  let outlineProgress := measureResults.map (· / totalMeasure)
  let features := extracted.2.map fun fi =>
    ProgressableFeature.mk
      (posMod ((outlineProgress.getD fi.2 0 + outlineProgress.getD (fi.2 + 1) 0) / 2) 1)
      fi.1
  MeasuredPolygon.new measure findCubicCutPoint features extracted.1 outlineProgress

/-- Embeds `MeasuredPolygon::cut_and_shift`; the `assert!` on the cutting point
and the panics reachable through indexing / `cut_at_progress` are modelled by
`none`. -/
def MeasuredPolygon.cutAndShift (mp : MeasuredPolygon) (cuttingPoint : ℚ) :
    Option MeasuredPolygon :=
  if 0 ≤ cuttingPoint ∧ cuttingPoint ≤ 1 then
    if cuttingPoint < distanceEpsilon ℚ then some mp
    else
      let targetIndex := (mp.cubics.findIdx? fun it =>
        decide (it.startOutlineProgress ≤ cuttingPoint ∧
          cuttingPoint ≤ it.endOutlineProgress)).getD 0
      match mp.cubics.get? targetIndex with
      | none => none
      | some target =>
        match target.cutAtProgress mp.measure mp.findCubicCutPoint cuttingPoint with
        | none => none
        | some b =>
          let n := mp.cubics.length
          let retCubics := (b.2.cubic :: (List.range (n - 1)).map fun i =>
              (mp.cubics.getD ((i + 1 + targetIndex) % n) default).cubic) ++ [b.1.cubic]
          let retOutlineProgress := (List.range (n + 2)).map fun index =>
            if index = 0 then 0
            else if index = n + 1 then 1
            else
              posMod ((mp.cubics.getD ((targetIndex + index - 1) % n)
                default).endOutlineProgress - cuttingPoint) 1
          let newFeatures := mp.features.map fun pf =>
            ProgressableFeature.mk (posMod (pf.progress - cuttingPoint) 1) pf.feature
          MeasuredPolygon.new mp.measure mp.findCubicCutPoint newFeatures retCubics
            retOutlineProgress
  else none

lemma buildMeasured_eq_nil_iff (measure : Cubic ℚ → ℚ) (op : List ℚ) (s : ℚ) (i : ℕ)
    (l : List (Cubic ℚ)) :
    buildMeasured measure op s i l = [] ↔
      ∀ j < l.length, op.getD (i + j + 1) 0 - op.getD (i + j) 0 ≤ distanceEpsilon ℚ := by
  induction l generalizing s i with
  | nil => simp [buildMeasured]
  | cons c rest ih =>
    by_cases hc : op.getD (i + 1) 0 - op.getD i 0 > distanceEpsilon ℚ
    · simp only [buildMeasured, if_pos hc]
      constructor
      · intro h; cases h
      · intro h
        exact absurd (h 0 (by simp)) (by simpa using not_le.mpr hc)
    · simp only [buildMeasured, if_neg hc]
      rw [ih]
      constructor
      · intro h j hj
        cases j with
        | zero => simpa using not_lt.mp hc
        | succ k =>
          have hk := h k (by simpa using Nat.lt_of_succ_lt_succ hj)
          have e1 : i + 1 + k = i + (k + 1) := by omega
          rw [e1] at hk
          exact hk
      · intro h j hj
        have hk := h (j + 1) (by simpa using Nat.succ_lt_succ hj)
        have e1 : i + (j + 1) = i + 1 + j := by omega
        rw [e1] at hk
        exact hk

/-- C9: under the caller-side length relation between the cubic list and the
outline-progress array, `MeasuredPolygon::new` panics (the modelled `none`,
from the `len - 1` underflow and the subsequent indexing) exactly when no
input cubic has a progress interval wider than `DISTANCE_EPSILON`; under the
complementary precondition the construction succeeds. -/
theorem C9_new_underflow_iff (measure : Cubic ℚ → ℚ) (findCut : Cubic ℚ → ℚ → ℚ)
    (features : List ProgressableFeature) (cubics : List (Cubic ℚ)) (op : List ℚ)
    (hlen : op.length = cubics.length + 1) :
    MeasuredPolygon.new measure findCut features cubics op = none ↔
      ∀ j < cubics.length, op.getD (j + 1) 0 - op.getD j 0 ≤ distanceEpsilon ℚ := by
  have hchar : MeasuredPolygon.new measure findCut features cubics op = none ↔
      buildMeasured measure op 0 0 cubics = [] := by
    cases hb : buildMeasured measure op 0 0 cubics with
    | nil => simp [MeasuredPolygon.new, hb]
    | cons mc rest => simp [MeasuredPolygon.new, hb]
  rw [hchar, buildMeasured_eq_nil_iff]
  constructor
  · intro h j hj
    have := h j hj
    simpa using this
  · intro h j hj
    simpa using h j hj

/-- Witness for C9: with a single cubic whose progress interval is `[0, 1]`
(wider than the epsilon) the construction does not panic. -/
theorem C9_new_underflow_iff_witness :
    MeasuredPolygon.new (fun _ => 1) (fun _ m => m) [] [wK0] [0, 1] ≠ none := by
  have h := C9_new_underflow_iff (fun _ => 1) (fun _ m => m) [] [wK0] [0, 1] rfl
  intro hnone
  have := h.mp hnone 0 (by simp)
  norm_num [distanceEpsilon] at this

/-- Chaining predicate: each measured cubic starts where the previous ended,
the first starting at `s`. -/
def chainedFrom (s : ℚ) : List MeasuredCubic → Prop
  | [] => True
  | mc :: rest => mc.startOutlineProgress = s ∧ chainedFrom mc.endOutlineProgress rest

lemma buildMeasured_chained (measure : Cubic ℚ → ℚ) (op : List ℚ) (s : ℚ) (i : ℕ)
    (l : List (Cubic ℚ)) : chainedFrom s (buildMeasured measure op s i l) := by
  induction l generalizing s i with
  | nil => trivial
  | cons c rest ih =>
    by_cases hc : op.getD (i + 1) 0 - op.getD i 0 > distanceEpsilon ℚ
    · simp only [buildMeasured, if_pos hc]
      exact ⟨rfl, ih _ _⟩
    · simp only [buildMeasured, if_neg hc]
      exact ih _ _

lemma setLastEnd_chained (s : ℚ) (l : List MeasuredCubic) (h : chainedFrom s l) :
    chainedFrom s (setLastEnd l) := by
  induction l generalizing s with
  | nil => trivial
  | cons mc rest ih =>
    cases rest with
    | nil => exact ⟨h.1, trivial⟩
    | cons mc2 rest2 => exact ⟨h.1, ih _ h.2⟩

lemma setLastEnd_ne_nil (l : List MeasuredCubic) (h : l ≠ []) : setLastEnd l ≠ [] := by
  cases l with
  | nil => exact absurd rfl h
  | cons mc rest => cases rest <;> simp [setLastEnd]

lemma setLastEnd_last (l : List MeasuredCubic) (h : l ≠ []) :
    ((setLastEnd l).getLastD default).endOutlineProgress = 1 := by
  induction l with
  | nil => exact absurd rfl h
  | cons mc rest ih =>
    cases rest with
    | nil => simp [setLastEnd]
    | cons mc2 rest2 =>
      have : setLastEnd (mc :: mc2 :: rest2) = mc :: setLastEnd (mc2 :: rest2) := rfl
      rw [this]
      have hne := setLastEnd_ne_nil (mc2 :: rest2) (by simp)
      rcases hs : setLastEnd (mc2 :: rest2) with _ | ⟨y, ys⟩
      · exact absurd hs hne
      · have := ih (by simp)
        rw [hs] at this
        simpa using this

lemma chainedFrom_head (s : ℚ) (l : List MeasuredCubic) (h : chainedFrom s l)
    (hne : l ≠ []) : (l.headD default).startOutlineProgress = s := by
  cases l with
  | nil => exact absurd rfl hne
  | cons mc rest => exact h.1

lemma chainedFrom_adjacent (s : ℚ) (l : List MeasuredCubic) (h : chainedFrom s l) :
    ∀ k, k + 1 < l.length →
      (l.getD k default).endOutlineProgress = (l.getD (k + 1) default).startOutlineProgress := by
  induction l generalizing s with
  | nil => intro k hk; simp at hk
  | cons mc rest ih =>
    intro k hk
    cases k with
    | zero =>
      cases rest with
      | nil => simp at hk
      | cons mc2 rest2 => simpa using h.2.1.symm
    | succ k2 =>
      have := ih mc.endOutlineProgress h.2 k2 (by simpa using Nat.lt_of_succ_lt_succ hk)
      simpa using this

/-- Structural invariant of a measured polygon (claim C5): nonempty cubic
list, first start progress 0, last end progress 1, and adjacent progress
values agreeing. -/
def MPolyInv (mp : MeasuredPolygon) : Prop :=
  mp.cubics ≠ [] ∧
  (mp.cubics.headD default).startOutlineProgress = 0 ∧
  (mp.cubics.getLastD default).endOutlineProgress = 1 ∧
  ∀ k, k + 1 < mp.cubics.length →
    (mp.cubics.getD k default).endOutlineProgress =
      (mp.cubics.getD (k + 1) default).startOutlineProgress

lemma new_inv (measure : Cubic ℚ → ℚ) (findCut : Cubic ℚ → ℚ → ℚ)
    (features : List ProgressableFeature) (cubics : List (Cubic ℚ)) (op : List ℚ)
    (mp : MeasuredPolygon)
    (h : MeasuredPolygon.new measure findCut features cubics op = some mp) : MPolyInv mp := by
  rcases hb : buildMeasured measure op 0 0 cubics with _ | ⟨mc, rest⟩
  · rw [MeasuredPolygon.new, hb] at h; cases h
  · rw [MeasuredPolygon.new, hb] at h
    have hmp : mp = ⟨measure, findCut, setLastEnd (mc :: rest), features⟩ :=
      (Option.some.injEq _ _ ▸ h).symm
    subst hmp
    have hchain : chainedFrom 0 (mc :: rest) := hb ▸ buildMeasured_chained measure op 0 0 cubics
    have hchain2 := setLastEnd_chained 0 _ hchain
    have hne := setLastEnd_ne_nil (mc :: rest) (by simp)
    exact ⟨hne, chainedFrom_head 0 _ hchain2 hne, setLastEnd_last _ (by simp),
      chainedFrom_adjacent 0 _ hchain2⟩

lemma buildMeasured_retention (measure : Cubic ℚ → ℚ) (op : List ℚ) (s : ℚ) (i : ℕ)
    (l : List (Cubic ℚ)) :
    ∀ mc ∈ buildMeasured measure op s i l, ∃ j < l.length,
      mc.cubic = l.getD j default ∧
      op.getD (i + j + 1) 0 - op.getD (i + j) 0 > distanceEpsilon ℚ := by
  induction l generalizing s i with
  | nil => intro mc h; simp [buildMeasured] at h
  | cons c rest ih =>
    intro mc h
    by_cases hc : op.getD (i + 1) 0 - op.getD i 0 > distanceEpsilon ℚ
    · rw [buildMeasured, if_pos hc] at h
      rcases List.mem_cons.mp h with h | h
      · exact ⟨0, by simp, by simp [h, MeasuredCubic.new], by simpa using hc⟩
      · obtain ⟨j, hj, hcub, hop⟩ := ih _ _ mc h
        refine ⟨j + 1, by simpa using Nat.succ_lt_succ hj, by simpa using hcub, ?_⟩
        have e1 : i + (j + 1) = i + 1 + j := by omega
        rw [e1]
        exact hop
    · rw [buildMeasured, if_neg hc] at h
      obtain ⟨j, hj, hcub, hop⟩ := ih _ _ mc h
      refine ⟨j + 1, by simpa using Nat.succ_lt_succ hj, by simpa using hcub, ?_⟩
      have e1 : i + (j + 1) = i + 1 + j := by omega
      rw [e1]
      exact hop

lemma setLastEnd_mem (l : List MeasuredCubic) :
    ∀ m ∈ setLastEnd l, ∃ mc' ∈ l, m.cubic = mc'.cubic := by
  induction l with
  | nil => intro m h; simp [setLastEnd] at h
  | cons a rest ih =>
    intro m h
    cases rest with
    | nil =>
      simp only [setLastEnd, List.mem_singleton] at h
      exact ⟨a, by simp, by simp [h]⟩
    | cons b rest2 =>
      have hs : setLastEnd (a :: b :: rest2) = a :: setLastEnd (b :: rest2) := rfl
      rw [hs] at h
      rcases List.mem_cons.mp h with h | h
      · exact ⟨a, by simp, by simp [h]⟩
      · obtain ⟨mc', hmem, hcub⟩ := ih m h
        exact ⟨mc', by simp [hmem], hcub⟩

/-- C5: measured polygons satisfy their structural invariants.  Part one: any
successful `MeasuredPolygon::new` yields a polygon whose first cubic starts at
progress 0, whose last cubic ends at exactly 1, whose adjacent cubics share
their progress values, and all of whose cubics come from inputs whose original
progress interval was wider than `DISTANCE_EPSILON`.  Part two: the same holds
for `measure_polygon`.  Part three: `cut_and_shift` preserves the structural
invariant. -/
theorem C5_measured_polygon_invariants :
    (∀ (measure : Cubic ℚ → ℚ) (findCut : Cubic ℚ → ℚ → ℚ)
        (features : List ProgressableFeature) (cubics : List (Cubic ℚ)) (op : List ℚ)
        (mp : MeasuredPolygon),
      MeasuredPolygon.new measure findCut features cubics op = some mp →
        MPolyInv mp ∧ ∀ mc ∈ mp.cubics, ∃ j < cubics.length,
          mc.cubic = cubics.getD j default ∧
          op.getD (j + 1) 0 - op.getD j 0 > distanceEpsilon ℚ) ∧
    (∀ (measure : Cubic ℚ → ℚ) (findCut : Cubic ℚ → ℚ → ℚ) (polygon : RoundedPolygon)
        (mp : MeasuredPolygon),
      measurePolygon measure findCut polygon = some mp → MPolyInv mp) ∧
    (∀ (mp : MeasuredPolygon) (cp : ℚ) (mp' : MeasuredPolygon),
      MPolyInv mp → mp.cutAndShift cp = some mp' → MPolyInv mp') := by
  have hone : ∀ (measure : Cubic ℚ → ℚ) (findCut : Cubic ℚ → ℚ → ℚ)
      (features : List ProgressableFeature) (cubics : List (Cubic ℚ)) (op : List ℚ)
      (mp : MeasuredPolygon),
      MeasuredPolygon.new measure findCut features cubics op = some mp →
        MPolyInv mp ∧ ∀ mc ∈ mp.cubics, ∃ j < cubics.length,
          mc.cubic = cubics.getD j default ∧
          op.getD (j + 1) 0 - op.getD j 0 > distanceEpsilon ℚ := by
    intro measure findCut features cubics op mp h
    refine ⟨new_inv _ _ _ _ _ _ h, ?_⟩
    rcases hb : buildMeasured measure op 0 0 cubics with _ | ⟨mc0, rest⟩
    · rw [MeasuredPolygon.new, hb] at h; cases h
    · rw [MeasuredPolygon.new, hb] at h
      have hmp : mp = ⟨measure, findCut, setLastEnd (mc0 :: rest), features⟩ :=
        (Option.some.injEq _ _ ▸ h).symm
      subst hmp
      intro mc hmc
      obtain ⟨mc', hmem, hcub⟩ := setLastEnd_mem _ _ hmc
      obtain ⟨j, hj, hcub', hop⟩ :=
        buildMeasured_retention measure op 0 0 cubics mc' (hb ▸ hmem)
      refine ⟨j, hj, ?_, by simpa using hop⟩
      rw [hcub, hcub']
  refine ⟨hone, ?_, ?_⟩
  · intro measure findCut polygon mp h
    exact (hone _ _ _ _ _ _ h).1
  · intro mp cp mp' hinv h
    rw [MeasuredPolygon.cutAndShift] at h
    by_cases h01 : 0 ≤ cp ∧ cp ≤ 1
    · rw [if_pos h01] at h
      by_cases heps : cp < distanceEpsilon ℚ
      · rw [if_pos heps] at h
        obtain rfl : mp = mp' := Option.some.injEq _ _ ▸ h
        exact hinv
      · rw [if_neg heps] at h
        rcases hg : mp.cubics.get? ((mp.cubics.findIdx? fun it =>
            decide (it.startOutlineProgress ≤ cp ∧
              cp ≤ it.endOutlineProgress)).getD 0) with _ | target
        · simp only [hg] at h
          cases h
        · simp only [hg] at h
          rcases hcut : target.cutAtProgress mp.measure mp.findCubicCutPoint cp with _ | b
          · simp only [hcut] at h
            cases h
          · simp only [hcut] at h
            exact (hone _ _ _ _ _ _ h).1
    · rw [if_neg h01] at h; cases h

/-- Witness for C5 on a concrete one-cubic measured polygon. -/
theorem C5_measured_polygon_invariants_witness :
    MPolyInv ⟨fun _ => 1, fun _ m => m, [⟨wK0, 0, 1, 1⟩], []⟩ :=
  (C5_measured_polygon_invariants.1 (fun _ => 1) (fun _ m => m) [] [wK0] [0, 1] _
    (by norm_num [MeasuredPolygon.new, buildMeasured, setLastEnd, MeasuredCubic.new,
      distanceEpsilon])).1

/-- C10: a cutting point below `DISTANCE_EPSILON` (and not below zero, so the
range assertion passes) makes `cut_and_shift` return the polygon completely
unchanged: no cut, no rotation, the documented algorithm is skipped. -/
theorem C10_cut_and_shift_noop (mp : MeasuredPolygon) (cp : ℚ)
    (h0 : 0 ≤ cp) (heps : cp < distanceEpsilon ℚ) :
    mp.cutAndShift cp = some mp := by
  rw [MeasuredPolygon.cutAndShift,
    if_pos ⟨h0, le_trans heps.le (by norm_num [distanceEpsilon])⟩, if_pos heps]

/-- Witness for C10 at the cutting point 0. -/
theorem C10_cut_and_shift_noop_witness :
    MeasuredPolygon.cutAndShift ⟨fun _ => 1, fun _ m => m, [⟨wK0, 0, 1, 1⟩], []⟩ 0 =
      some ⟨fun _ => 1, fun _ m => m, [⟨wK0, 0, 1, 1⟩], []⟩ :=
  C10_cut_and_shift_noop _ 0 le_rfl (by norm_num [distanceEpsilon])

/-- Embeds the validation loop of `validate_progress` in mapper.rs: every
value in `[0,1)`, circular distance of adjacent values above
`DISTANCE_EPSILON`, and at most one wrap; `prev` starts at the last element,
and the asserts are modelled by returning `false`. -/
def validateLoop (prev : ℚ) (wraps : ℕ) : List ℚ → Bool
  | [] => true
  | c :: rest =>
    decide (0 ≤ c ∧ c < 1) &&
    decide (progressDistance c prev > distanceEpsilon ℚ) &&
    (if c < prev then decide (wraps + 1 ≤ 1) && validateLoop c (wraps + 1) rest
     else validateLoop c wraps rest)

/-- Embeds `validate_progress` of mapper.rs. -/
def validateProgress (p : List ℚ) : Bool :=
  validateLoop (p.getLastD 0) 0 p

/-- Embeds the iterator search `(0..len).find(...)` used by `linear_map`. -/
def findInRange (p : ℕ → Bool) (i n : ℕ) : Option ℕ :=
  if h : i < n then (if p i then some i else findInRange p (i + 1) n) else none
termination_by n - i

/-- Embeds `linear_map` of mapper.rs; the `assert!` on the progress argument is
modelled by `none`. -/
def linearMap (xValues yValues : List ℚ) (x : ℚ) : Option ℚ :=
  if 0 ≤ x ∧ x ≤ 1 then
    let n := xValues.length
    let segmentStartIndex := (findInRange (fun it =>
      progressInRange x (xValues.getD it 0) (xValues.getD ((it + 1) % n) 0)) 0 n).getD 0
    let segmentEndIndex := (segmentStartIndex + 1) % n
    let segmentSizeX :=
      posMod (xValues.getD segmentEndIndex 0 - xValues.getD segmentStartIndex 0) 1
    let segmentSizeY :=
      posMod (yValues.getD segmentEndIndex 0 - yValues.getD segmentStartIndex 0) 1
    let positionInSegment :=
      if segmentSizeX < 1 / 1000 then 1 / 2
      else posMod (x - xValues.getD segmentStartIndex 0) 1 / segmentSizeX
    some (posMod (segmentSizeY * positionInSegment + yValues.getD segmentStartIndex 0) 1)
  else none

/-- Embeds `DoubleMapper` of mapper.rs. -/
structure DoubleMapper where
  sourceValues : List ℚ
  targetValues : List ℚ
  deriving DecidableEq, Repr

/-- Embeds `DoubleMapper::new` (unzip then validate both progress lists; the
validation asserts are modelled by `none`). -/
def DoubleMapper.new (mappings : List (ℚ × ℚ)) : Option DoubleMapper :=
  let sourceValues := mappings.map Prod.fst
  let targetValues := mappings.map Prod.snd
  if validateProgress sourceValues && validateProgress targetValues then
    some ⟨sourceValues, targetValues⟩
  else none

/-- Embeds `DoubleMapper::map`. -/
def DoubleMapper.map (m : DoubleMapper) (x : ℚ) : Option ℚ :=
  linearMap m.sourceValues m.targetValues x

/-- Embeds `DoubleMapper::map_back`. -/
def DoubleMapper.mapBack (m : DoubleMapper) (x : ℚ) : Option ℚ :=
  linearMap m.targetValues m.sourceValues x

lemma linearMap_char (xs ys : List ℚ) (x : ℚ) (i : ℕ) (sx sy pos y : ℚ)
    (hx : 0 ≤ x ∧ x ≤ 1)
    (hfind : findInRange (fun it =>
      progressInRange x (xs.getD it 0) (xs.getD ((it + 1) % xs.length) 0)) 0 xs.length =
      some i)
    (hsx : posMod (xs.getD ((i + 1) % xs.length) 0 - xs.getD i 0) 1 = sx)
    (hsy : posMod (ys.getD ((i + 1) % xs.length) 0 - ys.getD i 0) 1 = sy)
    (hpos : (if sx < 1 / 1000 then (1 : ℚ) / 2 else posMod (x - xs.getD i 0) 1 / sx) = pos)
    (hy : posMod (sy * pos + ys.getD i 0) 1 = y) :
    linearMap xs ys x = some y := by
  rw [linearMap, if_pos hx]
  simp only [hfind, Option.getD_some, hsx, hsy, hpos, hy]

/-- C4 counterexample: the valid mapper built from `[(0, 0), (1/2, 1/2000)]`
(all adjacent circular distances exceed `DISTANCE_EPSILON = 1/10000`) maps
`x = 1/10` to `1/10000`, which lies in the degenerate-width target segment
`[0, 1/2000)`; `map_back` therefore substitutes the midpoint position `1/2`
and returns `1/4`, a round-trip error of `3/20` — far beyond any epsilon. -/
theorem C4_roundtrip_counterexample :
    (DoubleMapper.new [(0, 0), (1 / 2, 1 / 2000)]).isSome ∧
    ((DoubleMapper.new [(0, 0), (1 / 2, 1 / 2000)]).bind fun m =>
        (m.map (1 / 10)).bind fun y => m.mapBack y) = some (1 / 4) ∧
    ¬ progressDistance (1 / 4) (1 / 10) ≤ 1 / 100 := by
  have hnew : DoubleMapper.new [(0, 0), (1 / 2, 1 / 2000)] =
      some ⟨[0, 1 / 2], [0, 1 / 2000]⟩ := by
    norm_num [DoubleMapper.new, validateProgress, validateLoop, progressDistance,
      distanceEpsilon, abs_of_nonneg, abs_of_nonpos]
  have hmap : DoubleMapper.map ⟨[0, 1 / 2], [0, 1 / 2000]⟩ (1 / 10) = some (1 / 10000) := by
    rw [DoubleMapper.map]
    refine linearMap_char _ _ _ 0 (1 / 2) (1 / 2000) (1 / 5) _ (by norm_num) ?_ ?_ ?_ ?_ ?_
    · rw [findInRange]
      norm_num [progressInRange]
    · norm_num [posMod]
    · norm_num [posMod]
    · norm_num [posMod]
    · norm_num [posMod]
  have hback : DoubleMapper.mapBack ⟨[0, 1 / 2], [0, 1 / 2000]⟩ (1 / 10000) =
      some (1 / 4) := by
    rw [DoubleMapper.mapBack]
    refine linearMap_char _ _ _ 0 (1 / 2000) (1 / 2) (1 / 2) _ (by norm_num) ?_ ?_ ?_ ?_ ?_
    · rw [findInRange]
      norm_num [progressInRange]
    · norm_num [posMod]
    · norm_num [posMod]
    · norm_num [posMod]
    · norm_num [posMod]
  refine ⟨by rw [hnew]; rfl, ?_, ?_⟩
  · rw [hnew, Option.some_bind, hmap, Option.some_bind, hback]
  · norm_num [progressDistance, abs_of_nonneg]

lemma fract_fract_add (a b : ℚ) : Int.fract (Int.fract a + b) = Int.fract (a + b) := by
  have h : Int.fract a + b = (a + b) - (⌊a⌋ : ℚ) := by
    rw [Int.fract]; ring
  rw [h, Int.fract_sub_int]

lemma fract_fract_sub (a b : ℚ) : Int.fract (Int.fract a - Int.fract b) = Int.fract (a - b) := by
  have h : Int.fract a - Int.fract b = (a - b) - ((⌊a⌋ - ⌊b⌋ : ℤ) : ℚ) := by
    push_cast [Int.fract]; ring
  rw [h, Int.fract_sub_int]

lemma fract_of_neg_window (d : ℚ) (h0 : -1 ≤ d) (h1 : d < 0) : Int.fract d = d + 1 := by
  have h : Int.fract d = Int.fract (d + 1) := by
    rw [show d + 1 = d + ((1 : ℤ) : ℚ) by push_cast; ring, Int.fract_add_int]
  rw [h, Int.fract_eq_self.mpr ⟨by linarith, by linarith⟩]

lemma fract_sub_eq_zero_iff (a b : ℚ) (ha0 : 0 ≤ a) (ha1 : a < 1) (hb0 : 0 ≤ b)
    (hb1 : b < 1) : Int.fract (a - b) = 0 ↔ a = b := by
  constructor
  · intro h
    by_contra hne
    rcases lt_or_gt_of_ne hne with hlt | hgt
    · rw [fract_of_neg_window (a - b) (by linarith) (by linarith)] at h
      linarith
    · rw [Int.fract_eq_self.mpr ⟨by linarith, by linarith⟩] at h
      linarith
  · intro h
    rw [h]
    simp

lemma validateLoop_cons (prev : ℚ) (wraps : ℕ) (c : ℚ) (rest : List ℚ)
    (h : validateLoop prev wraps (c :: rest) = true) :
    (0 ≤ c ∧ c < 1) ∧ progressDistance c prev > distanceEpsilon ℚ ∧
    ((c < prev ∧ wraps + 1 ≤ 1 ∧ validateLoop c (wraps + 1) rest = true) ∨
     (prev < c ∧ validateLoop c wraps rest = true)) := by
  simp only [validateLoop, Bool.and_eq_true, decide_eq_true_eq] at h
  obtain ⟨⟨h1, h2⟩, h3⟩ := h
  have hne : c ≠ prev := by
    intro heq
    rw [heq] at h2
    have : progressDistance prev prev = 0 := by simp [progressDistance]
    rw [this] at h2
    have : (0 : ℚ) < distanceEpsilon ℚ := by norm_num [distanceEpsilon]
    linarith
  refine ⟨h1, h2, ?_⟩
  by_cases hc : c < prev
  · rw [if_pos hc] at h3
    simp only [Bool.and_eq_true, decide_eq_true_eq] at h3
    exact Or.inl ⟨hc, h3.1, h3.2⟩
  · rw [if_neg hc] at h3
    exact Or.inr ⟨lt_of_le_of_ne (not_lt.mp hc) (Ne.symm hne), h3⟩

lemma validateLoop_bounds (prev : ℚ) (wraps : ℕ) (l : List ℚ)
    (h : validateLoop prev wraps l = true) : ∀ c ∈ l, 0 ≤ c ∧ c < 1 := by
  induction l generalizing prev wraps with
  | nil => intro c hc; simp at hc
  | cons a rest ih =>
    intro c hc
    obtain ⟨hb, _, hcase⟩ := validateLoop_cons prev wraps a rest h
    rcases List.mem_cons.mp hc with rfl | hc
    · exact hb
    · rcases hcase with ⟨_, _, hrest⟩ | ⟨_, hrest⟩
      · exact ih _ _ hrest c hc
      · exact ih _ _ hrest c hc

/-- Number of descents (`curr < prev`) along the validation walk. -/
def descCount (prev : ℚ) : List ℚ → ℕ
  | [] => 0
  | c :: rest => (if c < prev then 1 else 0) + descCount c rest

lemma validateLoop_desc_le (prev : ℚ) (wraps : ℕ) (l : List ℚ)
    (h : validateLoop prev wraps l = true) (hw : wraps ≤ 1) :
    wraps + descCount prev l ≤ 1 := by
  induction l generalizing prev wraps with
  | nil => simpa [descCount] using hw
  | cons a rest ih =>
    obtain ⟨_, _, hcase⟩ := validateLoop_cons prev wraps a rest h
    rcases hcase with ⟨ha, hw1, hrest⟩ | ⟨ha, hrest⟩
    · have := ih a (wraps + 1) hrest hw1
      simp only [descCount, if_pos ha]
      omega
    · have := ih a wraps hrest hw
      simp only [descCount, if_neg (not_lt.mpr ha.le)]
      omega

lemma noDesc_chain (prev : ℚ) (wraps : ℕ) (l : List ℚ)
    (h : validateLoop prev wraps l = true) (h0 : descCount prev l = 0) :
    List.Chain (· < ·) prev l := by
  induction l generalizing prev wraps with
  | nil => exact List.Chain.nil
  | cons a rest ih =>
    obtain ⟨_, _, hcase⟩ := validateLoop_cons prev wraps a rest h
    rcases hcase with ⟨ha, _, _⟩ | ⟨ha, hrest⟩
    · rw [descCount, if_pos ha] at h0
      omega
    · rw [descCount, if_neg (not_lt.mpr ha.le)] at h0
      exact List.Chain.cons ha (ih a wraps hrest (by omega))

lemma chain_lt_getLastD (a : ℚ) (l : List ℚ) (h : List.Chain (· < ·) a l) (hne : l ≠ []) :
    a < l.getLastD a := by
  induction l generalizing a with
  | nil => exact absurd rfl hne
  | cons b rest ih =>
    rcases h with _ | ⟨hab, hrest⟩
    rw [List.getLastD_cons]
    cases rest with
    | nil => simpa using hab
    | cons c rest2 => exact lt_trans hab (ih b hrest (by simp))

lemma oneDesc_split (prev : ℚ) (wraps : ℕ) (l : List ℚ)
    (hval : validateLoop prev wraps l = true) (h1 : descCount prev l = 1) :
    ∃ l1 c l2, l = l1 ++ c :: l2 ∧ List.Chain (· < ·) prev l1 ∧
      c < l1.getLastD prev ∧ List.Chain (· < ·) c l2 := by
  induction l generalizing prev wraps with
  | nil => simp [descCount] at h1
  | cons a rest ih =>
    obtain ⟨_, _, hcase⟩ := validateLoop_cons prev wraps a rest hval
    rcases hcase with ⟨ha, _, hrest⟩ | ⟨ha, hrest⟩
    · rw [descCount, if_pos ha] at h1
      have h0 : descCount a rest = 0 := by omega
      exact ⟨[], a, rest, rfl, List.Chain.nil, by simpa using ha,
        noDesc_chain a (wraps + 1) rest hrest h0⟩
    · rw [descCount, if_neg (not_lt.mpr ha.le)] at h1
      obtain ⟨l1, c, l2, heq, hch, hlast, hch2⟩ := ih a wraps hrest (by omega)
      refine ⟨a :: l1, c, l2, by rw [heq, List.cons_append], List.Chain.cons ha hch, ?_, hch2⟩
      rw [List.getLastD_cons]
      exact hlast

lemma getLastD_eq_of_ne_nil (l : List ℚ) (d1 d2 : ℚ) (h : l ≠ []) :
    l.getLastD d1 = l.getLastD d2 := by
  rw [List.getLastD_eq_getLast?, List.getLastD_eq_getLast?]
  rcases hg : l.getLast? with _ | z
  · exact absurd (List.getLast?_eq_none_iff.mp hg) h
  · rfl

lemma getLastD_eq_getD (l : List ℚ) (h : l ≠ []) (d : ℚ) :
    l.getLastD d = l.getD (l.length - 1) 0 := by
  induction l with
  | nil => exact absurd rfl h
  | cons x t ih =>
    cases t with
    | nil => simp
    | cons y t2 =>
      rw [List.getLastD_cons, getLastD_eq_of_ne_nil _ x d (by simp), ih (by simp)]
      simp

lemma getLastD_append_right (l1 l2 : List ℚ) (d : ℚ) (h : l2 ≠ []) :
    (l1 ++ l2).getLastD d = l2.getLastD d := by
  induction l1 with
  | nil => simp
  | cons x t ih =>
    rw [List.cons_append, List.getLastD_cons, getLastD_eq_of_ne_nil _ x d (by simp [h]), ih]

lemma descCount_eq_one (xs : List ℚ) (hval : validateProgress xs = true) (hne : xs ≠ []) :
    descCount (xs.getLastD 0) xs = 1 := by
  have hle := validateLoop_desc_le (xs.getLastD 0) 0 xs hval (by omega)
  rcases Nat.eq_zero_or_pos (descCount (xs.getLastD 0) xs) with h0 | hpos
  · exfalso
    have hchain := noDesc_chain (xs.getLastD 0) 0 xs hval h0
    have := chain_lt_getLastD (xs.getLastD 0) xs hchain hne
    rw [getLastD_eq_of_ne_nil xs (xs.getLastD 0) 0 hne] at this
    exact lt_irrefl _ this
  · omega

lemma chain_getD_lt (a : ℚ) (l : List ℚ) (h : List.Chain (· < ·) a l) :
    ∀ j, j + 1 < (a :: l).length → (a :: l).getD j 0 < (a :: l).getD (j + 1) 0 := by
  induction l generalizing a with
  | nil => intro j hj; simp at hj
  | cons b rest ih =>
    rcases h with _ | ⟨hab, hrest⟩
    intro j hj
    cases j with
    | zero => simpa using hab
    | succ k =>
      have := ih b hrest k (by simpa using Nat.lt_of_succ_lt_succ hj)
      simpa using this

lemma chain_getD_ge_head (a : ℚ) (l : List ℚ) (h : List.Chain (· < ·) a l) :
    ∀ j < (a :: l).length, a ≤ (a :: l).getD j 0 := by
  induction l generalizing a with
  | nil =>
    intro j hj
    have hj0 : j = 0 := by simpa using Nat.lt_one_iff.mp (by simpa using hj)
    subst hj0
    simp
  | cons b rest ih =>
    rcases h with _ | ⟨hab, hrest⟩
    intro j hj
    cases j with
    | zero => simp
    | succ k =>
      have := ih b hrest k (by simpa using Nat.lt_of_succ_lt_succ hj)
      calc a ≤ b := hab.le
      _ ≤ _ := by simpa using this

lemma chain_getD_le_getLastD (a : ℚ) (l : List ℚ) (h : List.Chain (· < ·) a l) :
    ∀ j < (a :: l).length, (a :: l).getD j 0 ≤ (a :: l).getLastD 0 := by
  induction l generalizing a with
  | nil =>
    intro j hj
    have hj0 : j = 0 := by simpa using Nat.lt_one_iff.mp (by simpa using hj)
    subst hj0
    simp
  | cons b rest ih =>
    rcases h with _ | ⟨hab, hrest⟩
    intro j hj
    have hlast : (a :: b :: rest).getLastD 0 = (b :: rest).getLastD 0 := by
      rw [List.getLastD_cons, getLastD_eq_of_ne_nil (b :: rest) a 0 (by simp)]
    cases j with
    | zero =>
      rw [hlast]
      have := ih b hrest 0 (by simp)
      calc (a :: b :: rest).getD 0 0 = a := by simp
      _ ≤ b := hab.le
      _ ≤ _ := by simpa using this
    | succ k =>
      rw [hlast]
      have := ih b hrest k (by simpa using Nat.lt_of_succ_lt_succ hj)
      simpa using this

/-- Cumulative circular coordinate of breakpoint `j`, measured from breakpoint
0. -/
def uc (xs : List ℚ) (j : ℕ) : ℚ := Int.fract (xs.getD j 0 - xs.getD 0 0)

lemma uc_zero (xs : List ℚ) : uc xs 0 = 0 := by simp [uc]

lemma uc_nonneg (xs : List ℚ) (j : ℕ) : 0 ≤ uc xs j := Int.fract_nonneg _

lemma uc_lt_one (xs : List ℚ) (j : ℕ) : uc xs j < 1 := Int.fract_lt_one _

lemma validateProgress_bounds (xs : List ℚ) (hval : validateProgress xs = true) :
    ∀ j < xs.length, 0 ≤ xs.getD j 0 ∧ xs.getD j 0 < 1 := by
  intro j hj
  have hmem : xs.getD j 0 ∈ xs := by
    rw [List.getD_eq_getElem xs 0 hj]
    exact List.getElem_mem hj
  exact validateLoop_bounds _ _ _ hval _ hmem

lemma uc_strictMono (xs : List ℚ) (hval : validateProgress xs = true) (hn : 2 ≤ xs.length) :
    ∀ j, j + 1 < xs.length → uc xs j < uc xs (j + 1) := by
  have hne : xs ≠ [] := by
    intro h
    rw [h] at hn
    simp at hn
  have hbnd := validateProgress_bounds xs hval
  obtain ⟨l1, c, l2, heq, hch1, hlast, hch2⟩ :=
    oneDesc_split _ 0 xs hval (descCount_eq_one xs hval hne)
  cases l1 with
  | nil =>
    simp only [List.nil_append] at heq
    have asc : ∀ j, j + 1 < xs.length → xs.getD j 0 < xs.getD (j + 1) 0 := by
      intro j hj
      rw [heq] at hj ⊢
      exact chain_getD_lt c l2 hch2 j hj
    have headle : ∀ j < xs.length, xs.getD 0 0 ≤ xs.getD j 0 := by
      intro j hj
      rw [heq] at hj ⊢
      exact chain_getD_ge_head c l2 hch2 j hj
    have hU : ∀ j < xs.length, uc xs j = xs.getD j 0 - xs.getD 0 0 := by
      intro j hj
      exact Int.fract_eq_self.mpr ⟨by linarith [headle j hj],
        by linarith [(hbnd j hj).2, (hbnd 0 (by omega)).1]⟩
    intro j hj
    rw [hU j (by omega), hU (j + 1) hj]
    linarith [asc j hj]
  | cons a l1' =>
    rcases hch1 with _ | ⟨hpa, hch1'⟩
    have hlen : xs.length = l1'.length + 1 + (l2.length + 1) := by
      rw [heq]; simp; omega
    have hxs0 : xs.getD 0 0 = a := by rw [heq]; rfl
    have hget_lo : ∀ j < l1'.length + 1, xs.getD j 0 = (a :: l1').getD j 0 := by
      intro j hj
      rw [heq]
      exact List.getD_append _ _ _ _ (by simpa using hj)
    have hget_hi : ∀ j, l1'.length + 1 ≤ j → xs.getD j 0 =
        (c :: l2).getD (j - (l1'.length + 1)) 0 := by
      intro j hj
      rw [heq]
      rw [List.getD_append_right _ _ _ _ (by simpa using hj)]
      simp
    have hprev : xs.getLastD 0 = (c :: l2).getLastD 0 := by
      rw [heq, getLastD_append_right _ _ _ (by simp)]
    have hlow_ge : ∀ j < l1'.length + 1, a ≤ xs.getD j 0 := by
      intro j hj
      rw [hget_lo j hj]
      exact chain_getD_ge_head a l1' hch1' j (by simpa using hj)
    have hhi_lt : ∀ j, l1'.length + 1 ≤ j → j < xs.length → xs.getD j 0 < a := by
      intro j hj1 hj2
      rw [hget_hi j hj1]
      calc (c :: l2).getD (j - (l1'.length + 1)) 0 ≤ (c :: l2).getLastD 0 :=
            chain_getD_le_getLastD c l2 hch2 _ (by simp; omega)
      _ = xs.getLastD 0 := hprev.symm
      _ < a := hpa
    have hU_lo : ∀ j < l1'.length + 1, uc xs j = xs.getD j 0 - a := by
      intro j hj
      unfold uc
      rw [hxs0]
      exact Int.fract_eq_self.mpr ⟨by linarith [hlow_ge j hj],
        by linarith [(hbnd j (by omega)).2, (hbnd 0 (by omega)).1, hxs0.symm.le]⟩
    have hU_hi : ∀ j, l1'.length + 1 ≤ j → j < xs.length → uc xs j = xs.getD j 0 - a + 1 := by
      intro j h1 h2
      unfold uc
      rw [hxs0]
      refine fract_of_neg_window _ ?_ ?_
      · have h0a : a < 1 := by rw [← hxs0]; exact (hbnd 0 (by omega)).2
        linarith [(hbnd j h2).1]
      · linarith [hhi_lt j h1 h2]
    have asc_lo : ∀ j, j + 1 < l1'.length + 1 → xs.getD j 0 < xs.getD (j + 1) 0 := by
      intro j hj
      rw [hget_lo j (by omega), hget_lo (j + 1) hj]
      exact chain_getD_lt a l1' hch1' j (by simpa using hj)
    have asc_hi : ∀ j, l1'.length + 1 ≤ j → j + 1 < xs.length →
        xs.getD j 0 < xs.getD (j + 1) 0 := by
      intro j hj1 hj2
      rw [hget_hi j hj1, hget_hi (j + 1) (by omega)]
      have hidx : j + 1 - (l1'.length + 1) = (j - (l1'.length + 1)) + 1 := by omega
      rw [hidx]
      refine chain_getD_lt c l2 hch2 _ ?_
      simp
      omega
    intro j hj
    rcases Nat.lt_trichotomy (j + 1) (l1'.length + 1) with hcase | hcase | hcase
    · rw [hU_lo j (by omega), hU_lo (j + 1) hcase]
      linarith [asc_lo j hcase]
    · rw [hU_lo j (by omega), hU_hi (j + 1) (by omega) hj]
      have h1 : xs.getD j 0 < 1 := (hbnd j (by omega)).2
      have h2 : 0 ≤ xs.getD (j + 1) 0 := (hbnd (j + 1) hj).1
      linarith
    · rw [hU_hi j (by omega) (by omega), hU_hi (j + 1) (by omega) hj]
      linarith [asc_hi j (by omega) hj]

lemma uc_mono_le (xs : List ℚ) (hval : validateProgress xs = true) (hn : 2 ≤ xs.length) :
    ∀ j k, j ≤ k → k < xs.length → uc xs j ≤ uc xs k := by
  intro j k hjk hk
  induction k with
  | zero =>
    have : j = 0 := Nat.le_zero.mp hjk
    subst this
    exact le_refl _
  | succ m ih =>
    rcases Nat.lt_or_ge j (m + 1) with hlt | hge
    · exact le_trans (ih (by omega) (by omega)) (uc_strictMono xs hval hn m hk).le
    · have : j = m + 1 := by omega
      subst this
      exact le_refl _

lemma width_eq (xs : List ℚ) (hval : validateProgress xs = true) (hn : 2 ≤ xs.length)
    (j : ℕ) (hj : j + 1 < xs.length) :
    Int.fract (xs.getD (j + 1) 0 - xs.getD j 0) = uc xs (j + 1) - uc xs j := by
  have e : xs.getD (j + 1) 0 - xs.getD j 0 =
      (xs.getD (j + 1) 0 - xs.getD 0 0) - (xs.getD j 0 - xs.getD 0 0) := by ring
  rw [e, ← fract_fract_sub]
  have h1 : Int.fract (xs.getD (j + 1) 0 - xs.getD 0 0) = uc xs (j + 1) := rfl
  have h2 : Int.fract (xs.getD j 0 - xs.getD 0 0) = uc xs j := rfl
  rw [h1, h2]
  exact Int.fract_eq_self.mpr ⟨by linarith [uc_strictMono xs hval hn j hj],
    by linarith [uc_lt_one xs (j + 1), uc_nonneg xs j]⟩

lemma uc_last_pos (xs : List ℚ) (hval : validateProgress xs = true) (hn : 2 ≤ xs.length) :
    0 < uc xs (xs.length - 1) := by
  have h01 : uc xs 0 < uc xs 1 := uc_strictMono xs hval hn 0 (by omega)
  have h1l : uc xs 1 ≤ uc xs (xs.length - 1) := uc_mono_le xs hval hn 1 _ (by omega) (by omega)
  rw [uc_zero] at h01
  linarith

lemma width_last (xs : List ℚ) (hval : validateProgress xs = true) (hn : 2 ≤ xs.length) :
    Int.fract (xs.getD 0 0 - xs.getD (xs.length - 1) 0) = 1 - uc xs (xs.length - 1) := by
  have e : xs.getD 0 0 - xs.getD (xs.length - 1) 0 =
      -(xs.getD (xs.length - 1) 0 - xs.getD 0 0) := by ring
  have hfr : Int.fract (xs.getD (xs.length - 1) 0 - xs.getD 0 0) = uc xs (xs.length - 1) := rfl
  rw [e, Int.fract_neg, hfr]
  rw [hfr]
  exact ne_of_gt (uc_last_pos xs hval hn)

lemma adj_ne (xs : List ℚ) (hval : validateProgress xs = true) (hn : 2 ≤ xs.length)
    (j : ℕ) (hj : j + 1 < xs.length) : xs.getD j 0 ≠ xs.getD (j + 1) 0 := by
  intro h
  have hw := width_eq xs hval hn j hj
  rw [← h, sub_self, Int.fract_zero] at hw
  linarith [uc_strictMono xs hval hn j hj]

lemma last_ne_first (xs : List ℚ) (hval : validateProgress xs = true) (hn : 2 ≤ xs.length) :
    xs.getD (xs.length - 1) 0 ≠ xs.getD 0 0 := by
  intro h
  have hw := width_last xs hval hn
  rw [h, sub_self, Int.fract_zero] at hw
  linarith [uc_lt_one xs (xs.length - 1)]

lemma progressInRange_iff_fract (x a b : ℚ) (hx0 : 0 ≤ x) (hx1 : x < 1)
    (ha0 : 0 ≤ a) (ha1 : a < 1) (hb0 : 0 ≤ b) (hb1 : b < 1) (hab : a ≠ b) :
    progressInRange x a b = true ↔ Int.fract (x - a) ≤ Int.fract (b - a) := by
  unfold progressInRange
  by_cases hba : b ≥ a
  · have hlt : a < b := lt_of_le_of_ne hba hab
    rw [if_pos hba]
    simp only [decide_eq_true_eq]
    rw [show Int.fract (b - a) = b - a from Int.fract_eq_self.mpr ⟨by linarith, by linarith⟩]
    constructor
    · rintro ⟨h1, h2⟩
      rw [show Int.fract (x - a) = x - a from
        Int.fract_eq_self.mpr ⟨by linarith, by linarith⟩]
      linarith
    · intro h
      by_cases hxa : a ≤ x
      · rw [show Int.fract (x - a) = x - a from
          Int.fract_eq_self.mpr ⟨by linarith, by linarith⟩] at h
        exact ⟨hxa, by linarith⟩
      · push_neg at hxa
        rw [show Int.fract (x - a) = x - a + 1 from
          fract_of_neg_window _ (by linarith) (by linarith)] at h
        exact absurd h (by push_neg; linarith)
  · push_neg at hba
    rw [if_neg (not_le.mpr hba)]
    simp only [decide_eq_true_eq]
    rw [show Int.fract (b - a) = b - a + 1 from
      fract_of_neg_window (b - a) (by linarith) (by linarith)]
    constructor
    · rintro (h1 | h2)
      · rw [show Int.fract (x - a) = x - a from
          Int.fract_eq_self.mpr ⟨by linarith, by linarith⟩]
        linarith
      · by_cases hxa : a ≤ x
        · rw [show Int.fract (x - a) = x - a from
            Int.fract_eq_self.mpr ⟨by linarith, by linarith⟩]
          linarith
        · push_neg at hxa
          rw [show Int.fract (x - a) = x - a + 1 from
            fract_of_neg_window _ (by linarith) (by linarith)]
          linarith
    · intro h
      by_cases hxa : a ≤ x
      · exact Or.inl hxa
      · push_neg at hxa
        rw [show Int.fract (x - a) = x - a + 1 from
          fract_of_neg_window _ (by linarith) (by linarith)] at h
        exact Or.inr (by linarith)

lemma findInRange_some (p : ℕ → Bool) (n i : ℕ) :
    ∀ a, findInRange p a n = some i →
      a ≤ i ∧ i < n ∧ p i = true ∧ ∀ j, a ≤ j → j < i → p j = false := by
  have H : ∀ k a, n - a = k → findInRange p a n = some i →
      a ≤ i ∧ i < n ∧ p i = true ∧ ∀ j, a ≤ j → j < i → p j = false := by
    intro k
    induction k with
    | zero =>
      intro a hk h
      rw [findInRange, dif_neg (by omega)] at h
      cases h
    | succ fuel ih =>
      intro a hk h
      rw [findInRange, dif_pos (show a < n by omega)] at h
      by_cases hp : p a = true
      · rw [if_pos hp] at h
        obtain rfl : a = i := Option.some.injEq _ _ ▸ h
        exact ⟨le_refl _, by omega, hp, fun j h1 h2 => by omega⟩
      · rw [if_neg hp] at h
        obtain ⟨h1, h2, h3, h4⟩ := ih (a + 1) (by omega) h
        refine ⟨by omega, h2, h3, ?_⟩
        intro j hj1 hj2
        rcases Nat.eq_or_lt_of_le hj1 with rfl | hlt
        · exact Bool.not_eq_true _ ▸ hp
        · exact h4 j (by omega) hj2
  intro a
  exact H (n - a) a rfl

lemma findInRange_eq_some (p : ℕ → Bool) (n i : ℕ) :
    ∀ a, a ≤ i → i < n → p i = true → (∀ j, a ≤ j → j < i → p j = false) →
      findInRange p a n = some i := by
  have H : ∀ k a, n - a = k → a ≤ i → i < n → p i = true →
      (∀ j, a ≤ j → j < i → p j = false) → findInRange p a n = some i := by
    intro k
    induction k with
    | zero => intro a hk ha hi _ _; omega
    | succ fuel ih =>
      intro a hk ha hi hp hprev
      rw [findInRange, dif_pos (show a < n by omega)]
      rcases Nat.eq_or_lt_of_le ha with rfl | hlt
      · rw [if_pos hp]
      · rw [if_neg (by rw [hprev a (le_refl _) hlt]; simp)]
        exact ih (a + 1) (by omega) hlt hi hp (fun j h1 h2 => hprev j (by omega) h2)
  intro a
  exact H (n - a) a rfl

lemma fract_fract_sub_left (a b : ℚ) : Int.fract (Int.fract a - b) = Int.fract (a - b) := by
  rw [sub_eq_add_neg, fract_fract_add, ← sub_eq_add_neg]

lemma fract_sub_inj (a b c : ℚ) (ha0 : 0 ≤ a) (ha1 : a < 1) (hb0 : 0 ≤ b) (hb1 : b < 1)
    (h : Int.fract (a - c) = Int.fract (b - c)) : a = b := by
  have h2 := fract_fract_sub (a - c) (b - c)
  rw [h, sub_self, Int.fract_zero] at h2
  have e : a - c - (b - c) = a - b := by ring
  rw [e] at h2
  exact (fract_sub_eq_zero_iff a b ha0 ha1 hb0 hb1).mp h2.symm

lemma segment_point_find (ys : List ℚ) (hvy : validateProgress ys = true)
    (hn : 2 ≤ ys.length) (i : ℕ) (hi : i < ys.length) (pos wy y : ℚ)
    (hpos0 : 0 < pos) (hpos1 : pos < 1)
    (hwy : wy = Int.fract (ys.getD ((i + 1) % ys.length) 0 - ys.getD i 0))
    (hy : y = Int.fract (wy * pos + ys.getD i 0)) :
    findInRange (fun it => progressInRange y (ys.getD it 0)
      (ys.getD ((it + 1) % ys.length) 0)) 0 ys.length = some i ∧
    Int.fract (y - ys.getD i 0) = wy * pos := by
  have hbnd := validateProgress_bounds ys hvy
  have hwy_pos : 0 < wy := by
    rcases Nat.lt_or_ge (i + 1) ys.length with ci | ci
    · rw [hwy, Nat.mod_eq_of_lt ci, width_eq ys hvy hn i ci]
      linarith [uc_strictMono ys hvy hn i ci]
    · have hieq : i = ys.length - 1 := by omega
      have hmod : (i + 1) % ys.length = 0 := by
        rw [show i + 1 = ys.length by omega, Nat.mod_self]
      rw [hwy, hmod, hieq, width_last ys hvy hn]
      linarith [uc_lt_one ys (ys.length - 1)]
  have hwy_lt_one : wy < 1 := by rw [hwy]; exact Int.fract_lt_one _
  have hprod0 : 0 < wy * pos := mul_pos hwy_pos hpos0
  have hprod_lt : wy * pos < wy := by
    nlinarith
  have hy0 : 0 ≤ y := by rw [hy]; exact Int.fract_nonneg _
  have hy1 : y < 1 := by rw [hy]; exact Int.fract_lt_one _
  have hfr_yi : Int.fract (y - ys.getD i 0) = wy * pos := by
    rw [hy, fract_fract_sub_left]
    have e : wy * pos + ys.getD i 0 - ys.getD i 0 = wy * pos := by ring
    rw [e]
    exact Int.fract_eq_self.mpr ⟨hprod0.le, by linarith⟩
  -- position of y in cumulative coordinates
  have hq_top : uc ys i + wy ≤ 1 := by
    rcases Nat.lt_or_ge (i + 1) ys.length with ci | ci
    · rw [hwy, Nat.mod_eq_of_lt ci, width_eq ys hvy hn i ci]
      linarith [uc_lt_one ys (i + 1)]
    · have hieq : i = ys.length - 1 := by omega
      have hmod : (i + 1) % ys.length = 0 := by
        rw [show i + 1 = ys.length by omega, Nat.mod_self]
      rw [hwy, hmod, hieq, width_last ys hvy hn]
      linarith
  have hpsi : Int.fract (y - ys.getD 0 0) = uc ys i + wy * pos := by
    rw [hy, fract_fract_sub_left]
    have e : wy * pos + ys.getD i 0 - ys.getD 0 0 =
        (ys.getD i 0 - ys.getD 0 0) + wy * pos := by ring
    rw [e, ← fract_fract_add]
    have hfri : Int.fract (ys.getD i 0 - ys.getD 0 0) = uc ys i := rfl
    rw [hfri]
    exact Int.fract_eq_self.mpr
      ⟨by linarith [uc_nonneg ys i], by linarith⟩
  have hne : ys.getD i 0 ≠ ys.getD ((i + 1) % ys.length) 0 := by
    rcases Nat.lt_or_ge (i + 1) ys.length with ci | ci
    · rw [Nat.mod_eq_of_lt ci]
      exact adj_ne ys hvy hn i ci
    · have hmod : (i + 1) % ys.length = 0 := by
        rw [show i + 1 = ys.length by omega, Nat.mod_self]
      rw [hmod, show i = ys.length - 1 by omega]
      exact last_ne_first ys hvy hn
  have hbi := hbnd i hi
  have hbi1 := hbnd ((i + 1) % ys.length) (Nat.mod_lt _ (by omega))
  have hfr_w : Int.fract (ys.getD ((i + 1) % ys.length) 0 - ys.getD i 0) = wy := hwy.symm
  have hp_i : progressInRange y (ys.getD i 0) (ys.getD ((i + 1) % ys.length) 0) = true := by
    rw [progressInRange_iff_fract y _ _ hy0 hy1 hbi.1 hbi.2 hbi1.1 hbi1.2 hne]
    rw [hfr_yi, hfr_w]
    nlinarith
  have hp_j : ∀ j, 0 ≤ j → j < i →
      progressInRange y (ys.getD j 0) (ys.getD ((j + 1) % ys.length) 0) = false := by
    intro j _ hj
    have hj1 : j + 1 < ys.length := by omega
    have hbj := hbnd j (by omega)
    have hbj1 := hbnd (j + 1) hj1
    rw [Nat.mod_eq_of_lt hj1]
    have hnej : ys.getD j 0 ≠ ys.getD (j + 1) 0 := adj_ne ys hvy hn j hj1
    rw [Bool.eq_false_iff]
    intro hcontra
    rw [progressInRange_iff_fract y _ _ hy0 hy1 hbj.1 hbj.2 hbj1.1 hbj1.2 hnej] at hcontra
    have hwj : Int.fract (ys.getD (j + 1) 0 - ys.getD j 0) = uc ys (j + 1) - uc ys j :=
      width_eq ys hvy hn j hj1
    have hyj : Int.fract (y - ys.getD j 0) = uc ys i + wy * pos - uc ys j := by
      have e : y - ys.getD j 0 = (y - ys.getD 0 0) - (ys.getD j 0 - ys.getD 0 0) := by ring
      rw [e, ← fract_fract_sub, hpsi]
      have hfrj : Int.fract (ys.getD j 0 - ys.getD 0 0) = uc ys j := rfl
      rw [hfrj]
      refine Int.fract_eq_self.mpr ⟨?_, ?_⟩
      · have := uc_mono_le ys hvy hn j i (by omega) hi
        linarith
      · have := uc_nonneg ys j
        linarith
    rw [hyj, hwj] at hcontra
    have hle : uc ys (j + 1) ≤ uc ys i := uc_mono_le ys hvy hn (j + 1) i (by omega) hi
    linarith
  exact ⟨findInRange_eq_some _ ys.length i 0 (Nat.zero_le i) hi hp_i hp_j, hfr_yi⟩

lemma seg_ne (xs : List ℚ) (hval : validateProgress xs = true) (hn : 2 ≤ xs.length)
    (i : ℕ) (hi : i < xs.length) : xs.getD i 0 ≠ xs.getD ((i + 1) % xs.length) 0 := by
  rcases Nat.lt_or_ge (i + 1) xs.length with ci | ci
  · rw [Nat.mod_eq_of_lt ci]
    exact adj_ne xs hval hn i ci
  · have hmod : (i + 1) % xs.length = 0 := by
      rw [show i + 1 = xs.length by omega, Nat.mod_self]
    rw [hmod, show i = xs.length - 1 by omega]
    exact last_ne_first xs hval hn

/-- C4 (amended): for a `DoubleMapper` built from validated progress lists, if the
input `x` lies strictly inside its source segment `i` and the circular widths of
both the source segment and the corresponding target segment are at least `1/1000`
(so that neither `linear_map` call substitutes the midpoint), then `map` followed
by `map_back` returns exactly `x` — a round-trip error of zero. -/
theorem C4_roundtrip_exact (xs ys : List ℚ) (x : ℚ) (i : ℕ)
    (hn : 2 ≤ xs.length) (hlen : ys.length = xs.length)
    (hvx : validateProgress xs = true) (hvy : validateProgress ys = true)
    (hx0 : 0 ≤ x) (hx1 : x < 1)
    (hfind : findInRange (fun it =>
      progressInRange x (xs.getD it 0) (xs.getD ((it + 1) % xs.length) 0)) 0 xs.length =
      some i)
    (hne0 : x ≠ xs.getD i 0) (hne1 : x ≠ xs.getD ((i + 1) % xs.length) 0)
    (hwx : 1 / 1000 ≤ posMod (xs.getD ((i + 1) % xs.length) 0 - xs.getD i 0) 1)
    (hwy : 1 / 1000 ≤ posMod (ys.getD ((i + 1) % xs.length) 0 - ys.getD i 0) 1) :
    (DoubleMapper.map ⟨xs, ys⟩ x).bind (DoubleMapper.mapBack ⟨xs, ys⟩) = some x := by
  rw [posMod_one] at hwx hwy
  obtain ⟨-, hi_n, hpi, -⟩ := findInRange_some _ xs.length i 0 hfind
  have hbndx := validateProgress_bounds xs hvx
  have hbxi := hbndx i hi_n
  have hbxi1 := hbndx ((i + 1) % xs.length) (Nat.mod_lt _ (by omega))
  have hnex : xs.getD i 0 ≠ xs.getD ((i + 1) % xs.length) 0 := seg_ne xs hvx hn i hi_n
  have hpi' : progressInRange x (xs.getD i 0) (xs.getD ((i + 1) % xs.length) 0) = true := hpi
  rw [progressInRange_iff_fract x _ _ hx0 hx1 hbxi.1 hbxi.2 hbxi1.1 hbxi1.2 hnex] at hpi'
  have hfx_pos : 0 < Int.fract (x - xs.getD i 0) := by
    rcases lt_or_eq_of_le (Int.fract_nonneg (x - xs.getD i 0)) with h | h
    · exact h
    · exact absurd ((fract_sub_eq_zero_iff x _ hx0 hx1 hbxi.1 hbxi.2).mp h.symm) hne0
  have hfx_lt : Int.fract (x - xs.getD i 0) <
      Int.fract (xs.getD ((i + 1) % xs.length) 0 - xs.getD i 0) := by
    rcases lt_or_eq_of_le hpi' with h | h
    · exact h
    · exact absurd (fract_sub_inj x _ _ hx0 hx1 hbxi1.1 hbxi1.2 h) hne1
  have hwx_pos : (0 : ℚ) < Int.fract (xs.getD ((i + 1) % xs.length) 0 - xs.getD i 0) := by
    linarith
  have hwx_ne : Int.fract (xs.getD ((i + 1) % xs.length) 0 - xs.getD i 0) ≠ 0 :=
    ne_of_gt hwx_pos
  have hpos0 : 0 < Int.fract (x - xs.getD i 0) /
      Int.fract (xs.getD ((i + 1) % xs.length) 0 - xs.getD i 0) := div_pos hfx_pos hwx_pos
  have hpos1 : Int.fract (x - xs.getD i 0) /
      Int.fract (xs.getD ((i + 1) % xs.length) 0 - xs.getD i 0) < 1 :=
    (div_lt_one hwx_pos).mpr hfx_lt
  have happ : DoubleMapper.map ⟨xs, ys⟩ x = some (Int.fract
      (Int.fract (ys.getD ((i + 1) % xs.length) 0 - ys.getD i 0) *
        (Int.fract (x - xs.getD i 0) /
          Int.fract (xs.getD ((i + 1) % xs.length) 0 - xs.getD i 0)) + ys.getD i 0)) := by
    rw [DoubleMapper.map]
    refine linearMap_char xs ys x i
      (Int.fract (xs.getD ((i + 1) % xs.length) 0 - xs.getD i 0))
      (Int.fract (ys.getD ((i + 1) % xs.length) 0 - ys.getD i 0))
      (Int.fract (x - xs.getD i 0) /
        Int.fract (xs.getD ((i + 1) % xs.length) 0 - xs.getD i 0))
      _ ⟨hx0, hx1.le⟩ hfind (posMod_one _) (posMod_one _)
      ?_ (posMod_one _)
    rw [if_neg (not_lt.mpr hwx), posMod_one]
  obtain ⟨hfind', hfr⟩ := segment_point_find ys hvy (by omega) i (by omega)
    (Int.fract (x - xs.getD i 0) /
      Int.fract (xs.getD ((i + 1) % xs.length) 0 - xs.getD i 0))
    (Int.fract (ys.getD ((i + 1) % xs.length) 0 - ys.getD i 0))
    (Int.fract
      (Int.fract (ys.getD ((i + 1) % xs.length) 0 - ys.getD i 0) *
        (Int.fract (x - xs.getD i 0) /
          Int.fract (xs.getD ((i + 1) % xs.length) 0 - xs.getD i 0)) + ys.getD i 0))
    hpos0 hpos1 (by rw [hlen]) rfl
  have hwy_pos : (0 : ℚ) < Int.fract (ys.getD ((i + 1) % xs.length) 0 - ys.getD i 0) := by
    linarith
  have hback : DoubleMapper.mapBack ⟨xs, ys⟩ (Int.fract
      (Int.fract (ys.getD ((i + 1) % xs.length) 0 - ys.getD i 0) *
        (Int.fract (x - xs.getD i 0) /
          Int.fract (xs.getD ((i + 1) % xs.length) 0 - xs.getD i 0)) + ys.getD i 0)) =
      some x := by
    rw [DoubleMapper.mapBack]
    refine linearMap_char ys xs _ i
      (Int.fract (ys.getD ((i + 1) % xs.length) 0 - ys.getD i 0))
      (Int.fract (xs.getD ((i + 1) % xs.length) 0 - xs.getD i 0))
      (Int.fract (x - xs.getD i 0) /
        Int.fract (xs.getD ((i + 1) % xs.length) 0 - xs.getD i 0))
      x ⟨Int.fract_nonneg _, (Int.fract_lt_one _).le⟩ hfind' ?_ ?_ ?_ ?_
    · rw [posMod_one, hlen]
    · rw [posMod_one, hlen]
    · rw [if_neg (not_lt.mpr hwy), posMod_one, hfr]
      exact mul_div_cancel_left₀ _ (ne_of_gt hwy_pos)
    · rw [posMod_one]
      rw [show Int.fract (xs.getD ((i + 1) % xs.length) 0 - xs.getD i 0) *
          (Int.fract (x - xs.getD i 0) /
            Int.fract (xs.getD ((i + 1) % xs.length) 0 - xs.getD i 0)) =
          Int.fract (x - xs.getD i 0) from by
        rw [mul_comm]
        exact div_mul_cancel₀ _ hwx_ne]
      rw [fract_fract_add]
      rw [show x - xs.getD i 0 + xs.getD i 0 = x from by ring]
      exact Int.fract_eq_self.mpr ⟨hx0, hx1⟩
  rw [happ]
  exact hback

/-- Outcomes of the sweep in `Morph::match_morph`: `unmatched` is the
`assert!(b1.is_none() && b2.is_none(), "Expected both Polygon's Cubic to be
fully matched")` failing; `panicked` covers the panics reachable through the
mapper's progress assert and through `cut_at_progress`; `fuelExhausted` models
non-termination of the `while` loop. -/
inductive MorphError where
  | unmatched
  | panicked
  | fuelExhausted
  deriving DecidableEq, Repr

/-- Loop state of the sweep in `Morph::match_morph`: the accumulated matched
pairs `ret`, the two cursor indices `i1`/`i2`, and the current measured cubics
`b1`/`b2`. -/
structure MatchState where
  ret : List (Cubic ℚ × Cubic ℚ)
  i1 : ℕ
  i2 : ℕ
  b1 : Option MeasuredCubic
  b2 : Option MeasuredCubic

/-- Embeds the sweep `while let (Some(bb1), Some(bb2)) = (b1.take(), b2.take())`
of `Morph::match_morph` together with the trailing assert. `Option::take`
replaces both `b1` and `b2` by `None` *before* the tuple pattern is tested, so
on every exit path from the loop both variables have just been cleared; the
trailing `assert!(b1.is_none() && b2.is_none())` reads exactly those cleared
variables, which is modelled here verbatim in the exit branch. -/
def morphLoop (bs1 bs2 : MeasuredPolygon) (dm : DoubleMapper) (cut : ℚ) :
    ℕ → MatchState → Except MorphError (List (Cubic ℚ × Cubic ℚ))
  | 0, _ => .error .fuelExhausted
  | fuel + 1, st =>
    -- b1.take() / b2.take(): both variables are cleared, their previous
    -- contents are what the tuple pattern is matched against.
    let b1 : Option MeasuredCubic := none
    let b2 : Option MeasuredCubic := none
    match st.b1, st.b2 with
    | some bb1, some bb2 =>
      let b1a := if st.i1 = bs1.cubics.length then 1 else bb1.endOutlineProgress
      match (if st.i2 = bs2.cubics.length then some 1
             else (dm.mapBack (bb2.endOutlineProgress + cut)).map
               fun v => posMod v 1) with
      | none => .error .panicked
      | some b2a =>
        let minb := min b1a b2a
        match (if b1a > minb + angleEpsilon ℚ then
                 (bb1.cutAtProgress bs1.measure bs1.findCubicCutPoint minb).map
                   fun ab => (ab.1, some ab.2, st.i1)
               else some (bb1, bs1.cubics.get? st.i1, st.i1 + 1)) with
        | none => .error .panicked
        | some s1 =>
          match (if b2a > minb + angleEpsilon ℚ then
                   (dm.map minb).bind fun m =>
                     (bb2.cutAtProgress bs2.measure bs2.findCubicCutPoint
                       (posMod (m - cut) 1)).map fun ab => (ab.1, some ab.2, st.i2)
                 else some (bb2, bs2.cubics.get? st.i2, st.i2 + 1)) with
          | none => .error .panicked
          | some s2 =>
            morphLoop bs1 bs2 dm cut fuel
              ⟨st.ret ++ [(s1.1.cubic, s2.1.cubic)], s1.2.2, s2.2.2, s1.2.1, s2.2.1⟩
    | _, _ =>
      if b1.isNone && b2.isNone then .ok st.ret else .error .unmatched

/-- Embeds `Morph::match_morph` from the point where both polygons have been
measured: compute `polygon2_cut_point = double_mapper.map(0.0)`, cut and shift
the second polygon, then sweep starting from the first cubic of each list with
both cursors already advanced to 1. -/
def matchMorph (bs1 mp2 : MeasuredPolygon) (dm : DoubleMapper) (fuel : ℕ) :
    Except MorphError (List (Cubic ℚ × Cubic ℚ)) :=
  (dm.map 0).elim (.error .panicked) fun cut =>
    (mp2.cutAndShift cut).elim (.error .panicked) fun bs2 =>
      morphLoop bs1 bs2 dm cut fuel ⟨[], 1, 1, bs1.cubics.get? 0, bs2.cubics.get? 0⟩

def mA : MeasuredCubic := ⟨Cubic.straightLine ⟨0, 0⟩ ⟨1, 0⟩, 0, 1, 1⟩

def mB1 : MeasuredCubic := ⟨Cubic.straightLine ⟨0, 0⟩ ⟨0, 1⟩, 0, 999 / 1000, 1⟩

def mB2 : MeasuredCubic := ⟨Cubic.straightLine ⟨0, 1⟩ ⟨0, 0⟩, 999 / 1000, 1, 1⟩

def morphPoly1 : MeasuredPolygon := ⟨fun _ => 1, fun _ m => m, [mA], []⟩

def morphPoly2 : MeasuredPolygon := ⟨fun _ => 1, fun _ m => m, [mB1, mB2], []⟩

def morphMapper : DoubleMapper := ⟨[0, 1999 / 2000], [0, 1 / 2]⟩

lemma morphMapper_map_zero : morphMapper.map 0 = some 0 := by
  rw [morphMapper, DoubleMapper.map]
  refine linearMap_char _ _ _ 0 (1999 / 2000) (1 / 2) 0 _ (by norm_num) ?_ ?_ ?_ ?_ ?_
  · rw [findInRange]
    norm_num [progressInRange]
  · norm_num [posMod]
  · norm_num [posMod]
  · norm_num [posMod]
  · norm_num [posMod]

lemma morphMapper_mapBack_end : morphMapper.mapBack (999 / 1000) =
    some (999999 / 1000000) := by
  rw [morphMapper, DoubleMapper.mapBack]
  refine linearMap_char _ _ _ 1 (1 / 2) (1 / 2000) (499 / 500) _ (by norm_num)
    ?_ ?_ ?_ ?_ ?_
  · rw [findInRange, findInRange]
    norm_num [progressInRange]
  · norm_num [posMod]
  · norm_num [posMod]
  · norm_num [posMod]
  · norm_num [posMod]

lemma morphPoly2_shift : morphPoly2.cutAndShift 0 = some morphPoly2 := by
  rw [MeasuredPolygon.cutAndShift]
  norm_num [distanceEpsilon]

lemma matchMorph_start : matchMorph morphPoly1 morphPoly2 morphMapper 2 =
    morphLoop morphPoly1 morphPoly2 morphMapper 0 2 ⟨[], 1, 1, some mA, some mB1⟩ := by
  have hget10 : morphPoly1.cubics.get? 0 = some mA := rfl
  have hget20 : morphPoly2.cubics.get? 0 = some mB1 := rfl
  simp only [matchMorph, morphMapper_map_zero, morphPoly2_shift, Option.elim_some,
    hget10, hget20]

lemma morphLoop_step1 :
    morphLoop morphPoly1 morphPoly2 morphMapper 0 2 ⟨[], 1, 1, some mA, some mB1⟩ =
    morphLoop morphPoly1 morphPoly2 morphMapper 0 1
      ⟨[(mA.cubic, mB1.cubic)], 2, 2, none, some mB2⟩ := by
  have hlen1 : morphPoly1.cubics.length = 1 := rfl
  have hlen2 : morphPoly2.cubics.length = 2 := rfl
  have hget11 : morphPoly1.cubics.get? 1 = none := rfl
  have hget21 : morphPoly2.cubics.get? 1 = some mB2 := rfl
  have hend1 : mB1.endOutlineProgress = 999 / 1000 := rfl
  have hfr : Int.fract ((999999 : ℚ) / 1000000) = 999999 / 1000000 :=
    Int.fract_eq_self.mpr (by norm_num)
  rw [show (2 : ℕ) = 1 + 1 from rfl, morphLoop]
  norm_num [hlen1, hlen2, hget11, hget21, hend1, morphMapper_mapBack_end,
    angleEpsilon, posMod, min_def, hfr]
  rfl

lemma morphLoop_step2 :
    morphLoop morphPoly1 morphPoly2 morphMapper 0 1
      ⟨[(mA.cubic, mB1.cubic)], 2, 2, none, some mB2⟩ =
    .ok [(mA.cubic, mB1.cubic)] := rfl

lemma matchMorph_concrete : matchMorph morphPoly1 morphPoly2 morphMapper 2 =
    .ok [(mA.cubic, mB1.cubic)] :=
  (matchMorph_start.trans morphLoop_step1).trans morphLoop_step2

set_option maxHeartbeats 1600000 in
/-- C1: refuted by the code. `Option::take` in the loop head of
`Morph::match_morph` clears `b1` and `b2` before the tuple pattern is tested,
so the trailing `assert!(b1.is_none() && b2.is_none())` reads two freshly
cleared variables and can never fire: the sweep never signals `unmatched`, for
any inputs whatsoever. A concrete run exhibits the consequence: with one
measured cubic against two and a valid mapper (cut point 0), the sweep returns
normally with a single matched pair while the second polygon's list still
holds an unconsumed cubic — the situation the assert was meant to reject. -/
theorem C1_unmatched_unreachable :
    (∀ (bs1 bs2 : MeasuredPolygon) (dm : DoubleMapper) (cut : ℚ) (fuel : ℕ)
        (st : MatchState),
      morphLoop bs1 bs2 dm cut fuel st ≠ .error .unmatched) ∧
    matchMorph morphPoly1 morphPoly2 morphMapper 2 = .ok [(mA.cubic, mB1.cubic)] ∧
    morphPoly2.cubics.length = 2 := by
  refine ⟨?_, ?_, rfl⟩
  · intro bs1 bs2 dm cut fuel
    induction fuel with
    | zero =>
      intro st
      rw [morphLoop]
      simp
    | succ n ih =>
      intro st
      rw [morphLoop]
      cases hb1 : st.b1 <;> cases hb2 : st.b2 <;> simp only [hb1, hb2]
      · simp
      · simp
      · simp
      · split
        · simp
        · split
          · simp
          · split
            · simp
            · exact ih _
  · exact matchMorph_concrete

theorem C4_roundtrip_exact_witness :
    (DoubleMapper.map ⟨[0, 1 / 2], [0, 1 / 2]⟩ (1 / 4)).bind
      (DoubleMapper.mapBack ⟨[0, 1 / 2], [0, 1 / 2]⟩) = some (1 / 4) :=
  C4_roundtrip_exact [0, 1 / 2] [0, 1 / 2] (1 / 4) 0 (by norm_num) (by norm_num)
    (by norm_num [validateProgress, validateLoop, progressDistance, distanceEpsilon,
      abs_of_nonneg, abs_of_nonpos])
    (by norm_num [validateProgress, validateLoop, progressDistance, distanceEpsilon,
      abs_of_nonneg, abs_of_nonpos])
    (by norm_num) (by norm_num)
    (by rw [findInRange]; norm_num [progressInRange])
    (by norm_num) (by norm_num)
    (by norm_num [posMod]) (by norm_num [posMod])

/-! ### The corner-rounding engine of rounded_polygon.rs, over the reals -/

noncomputable section

/-- Embeds euclid's `length`: the square root of the sum of squared
components. -/
def Pt.length (v : Pt ℝ) : ℝ := Real.sqrt (v.x * v.x + v.y * v.y)

/-- Embeds `get_direction` of geometry.rs; its `assert!(d > 0.0)` is modelled
by `none`. -/
def Pt.getDirection (v : Pt ℝ) : Option (Pt ℝ) :=
  if 0 < v.length then some (v / v.length) else none

lemma Pt.getDirection_pos (v : Pt ℝ) (h : 0 < v.length) :
    v.getDirection = some (v / v.length) := by
  rw [Pt.getDirection, if_pos h]

/-- Embeds euclid's `normalize`: `self / self.length()` (no zero guard in the
source). -/
def Pt.normalize (v : Pt ℝ) : Pt ℝ := v / v.length

/-- Embeds `CornerRounding` of rounded_polygon.rs. -/
structure CornerRounding where
  radius : ℝ
  smoothing : ℝ

/-- Embeds `RoundedCorner` of rounded_polygon.rs. -/
structure RoundedCorner where
  p0 : Pt ℝ
  p1 : Pt ℝ
  p2 : Pt ℝ
  d1 : Pt ℝ
  d2 : Pt ℝ
  cornerRadius : ℝ
  smoothing : ℝ
  expectedRoundCut : ℝ
  center : Pt ℝ

instance : Inhabited RoundedCorner :=
  ⟨⟨default, default, default, Pt.zero, Pt.zero, 0, 0, 0, Pt.zero⟩⟩

/-- Embeds `RoundedCorner::new`: the direction vectors, radius, smoothing and
`expected_round_cut` keep their zero initialisers unless both neighbour
distances are positive, and `expected_round_cut` additionally requires
`sin_angle > 1e-3`. -/
def RoundedCorner.new (p0 p1 p2 : Pt ℝ) (rounding : Option CornerRounding) :
    RoundedCorner :=
  let v01 := p0 - p1
  let v21 := p2 - p1
  let d01 := v01.length
  let d21 := v21.length
  if 0 < d01 ∧ 0 < d21 then
    let d1 := v01 / d01
    let d2 := v21 / d21
    let cornerRadius := (rounding.map CornerRounding.radius).getD 0
    let smoothing := (rounding.map CornerRounding.smoothing).getD 0
    let cosAngle := d1.dot d2
    let sinAngle := Real.sqrt (cosAngle * -cosAngle + 1)
    let expectedRoundCut :=
      if 1 / 1000 < sinAngle then cornerRadius * (cosAngle + 1) / sinAngle else 0
    ⟨p0, p1, p2, d1, d2, cornerRadius, smoothing, expectedRoundCut, Pt.zero⟩
  else
    ⟨p0, p1, p2, Pt.zero, Pt.zero, 0, 0, 0, Pt.zero⟩

/-- Embeds `RoundedCorner::expected_cut`. -/
def RoundedCorner.expectedCut (rc : RoundedCorner) : ℝ :=
  (1 + rc.smoothing) * rc.expectedRoundCut

/-- Embeds `RoundedCorner::calculate_actual_smoothing_value`. -/
def RoundedCorner.calculateActualSmoothingValue (rc : RoundedCorner)
    (allowedCut : ℝ) : ℝ :=
  if rc.expectedCut < allowedCut then rc.smoothing
  else if rc.expectedRoundCut < allowedCut then
    rc.smoothing * (allowedCut - rc.expectedRoundCut) /
      (rc.expectedCut - rc.expectedRoundCut)
  else 0

/-- Embeds `RoundedCorner::line_intersection`. -/
def lineIntersection (p0 d0 p1 d1 : Pt ℝ) : Option (Pt ℝ) :=
  let rotatedD1 := d1.rotate90
  let den := d0.dot rotatedD1
  if |den| < distanceEpsilon ℝ then none
  else
    let num := (p1 - p0).dot rotatedD1
    if |den| < distanceEpsilon ℝ * |num| then none
    else some (p0 + d0 * (num / den))

/-- Embeds `RoundedCorner::compute_flanking_curve`; the `get_direction` assert
on the side direction is modelled by `none`. -/
def computeFlankingCurve (actualRoundCut actualSmoothingValues : ℝ)
    (corner sideStart circleSegmentIntersection otherCircleSegmentIntersection
      circleCenter : Pt ℝ) (actualR : ℝ) : Option (Cubic ℝ) :=
  ((sideStart - corner).getDirection).map fun sideDirection =>
    let curveStart :=
      corner + sideDirection * actualRoundCut * (1 + actualSmoothingValues)
    let p := circleSegmentIntersection.lerp
      ((circleSegmentIntersection + otherCircleSegmentIntersection) / (2 : ℝ))
      actualSmoothingValues
    let curveEnd := circleCenter + (p - circleCenter).normalize * actualR
    let circleTangent := (curveEnd - circleCenter).rotate90
    let anchorEnd := (lineIntersection sideStart sideDirection curveEnd
      circleTangent).getD circleSegmentIntersection
    let anchorStart := (curveStart + anchorEnd * (2 : ℝ)) / (3 : ℝ)
    ⟨curveStart, anchorStart, anchorEnd, curveEnd⟩

/-- Embeds `Cubic::circular_arc`. -/
def circularArc (center p0 p1 : Pt ℝ) : Cubic ℝ :=
  let p0d := (p0 - center).normalize
  let p1d := (p1 - center).normalize
  let rotatedP0 := p0d.rotate90
  let rotatedP1 := p1d.rotate90
  let clockwise := 0 ≤ rotatedP0.dot (p1 - center)
  let cosa := p0d.dot p1d
  if 999 / 1000 < cosa then Cubic.straightLine p0 p1
  else
    let k := (p0 - center).length * 4 / 3 *
      (Real.sqrt (2 * (1 - cosa)) - Real.sqrt (cosa * -cosa + 1)) / (1 - cosa) *
      (if clockwise then 1 else -1)
    ⟨p0, p0 + rotatedP0 * k, p1 + rotatedP1 * (-k), p1⟩

/-- Embeds `RoundedCorner::get_cubics`; the `get_direction` asserts reachable
in the non-degenerate branch are modelled by `none`, and the mutation of
`self.center` is dropped (only the returned cubic list is observed). -/
def RoundedCorner.getCubics (rc : RoundedCorner) (allowedCut0 allowedCut1 : ℝ) :
    Option (List (Cubic ℝ)) :=
  let allowedCut := min allowedCut0 allowedCut1
  if rc.expectedRoundCut < distanceEpsilon ℝ ∨ allowedCut < distanceEpsilon ℝ ∨
      rc.cornerRadius < distanceEpsilon ℝ then
    some [Cubic.straightLine rc.p1 rc.p1]
  else
    let actualRoundCut := min allowedCut rc.expectedRoundCut
    let actualSmoothing0 := rc.calculateActualSmoothingValue allowedCut0
    let actualSmoothing1 := rc.calculateActualSmoothingValue allowedCut1
    let actualR := rc.cornerRadius * actualRoundCut / rc.expectedRoundCut
    let centerDistance := Real.sqrt (actualR * actualR + actualRoundCut * actualRoundCut)
    (((rc.d1 + rc.d2) / (2 : ℝ)).getDirection).bind fun dir =>
      let center := rc.p1 + dir * centerDistance
      let circleIntersection0 := rc.p1 + rc.d1 * actualRoundCut
      let circleIntersection2 := rc.p1 + rc.d2 * actualRoundCut
      (computeFlankingCurve actualRoundCut actualSmoothing0 rc.p1 rc.p0
        circleIntersection0 circleIntersection2 center actualR).bind fun flanking0 =>
      (computeFlankingCurve actualRoundCut actualSmoothing1 rc.p1 rc.p2
        circleIntersection2 circleIntersection0 center actualR).map fun f2 =>
      let flanking2 := f2.reversed
      let flanking1 := circularArc center flanking0.a1 flanking2.a0
      [flanking0, flanking1, flanking2]

/-- C3 (amended): `RoundedCorner::get_cubics` returns the single zero-length
cubic `[straight_line(p1, p1)]` exactly when `expected_round_cut <
DISTANCE_EPSILON`, or the minimum allowed cut `< DISTANCE_EPSILON`, or the
corner radius `< DISTANCE_EPSILON` (in particular radius 0 always yields one
cubic); smoothing 0 alone does not trigger the degenerate branch — the claim's
"or s = 0" clause is refuted by the accompanying counterexample. -/
theorem C3_single_zero_length_iff (rc : RoundedCorner) (c0 c1 : ℝ) :
    rc.getCubics c0 c1 = some [Cubic.straightLine rc.p1 rc.p1] ↔
      (rc.expectedRoundCut < distanceEpsilon ℝ ∨ min c0 c1 < distanceEpsilon ℝ ∨
        rc.cornerRadius < distanceEpsilon ℝ) := by
  simp only [RoundedCorner.getCubics]
  by_cases hcond : rc.expectedRoundCut < distanceEpsilon ℝ ∨
      min c0 c1 < distanceEpsilon ℝ ∨ rc.cornerRadius < distanceEpsilon ℝ
  · rw [if_pos hcond]
    exact iff_of_true rfl hcond
  · rw [if_neg hcond]
    simp only [hcond, iff_false]
    intro hEq
    rw [Option.bind_eq_some] at hEq
    obtain ⟨dir, -, hEq⟩ := hEq
    rw [Option.bind_eq_some] at hEq
    obtain ⟨f0, -, hEq⟩ := hEq
    rw [Option.map_eq_some'] at hEq
    obtain ⟨f2, -, hEq⟩ := hEq
    simp at hEq

lemma Pt.ext2 {α : Type} [LinearOrderedField α] {p q : Pt α}
    (hx : p.x = q.x) (hy : p.y = q.y) : p = q := by
  cases p
  cases q
  cases hx
  cases hy
  rfl

lemma c3_len1 : ((⟨1, 0⟩ : Pt ℝ) - ⟨0, 0⟩).length = 1 := by
  rw [Pt.length]
  norm_num [Real.sqrt_one]

lemma c3_len2 : ((⟨0, 1⟩ : Pt ℝ) - ⟨0, 0⟩).length = 1 := by
  rw [Pt.length]
  norm_num [Real.sqrt_one]

lemma c3_corner_eq : RoundedCorner.new ⟨1, 0⟩ ⟨0, 0⟩ ⟨0, 1⟩ (some ⟨1, 0⟩) =
    ⟨⟨1, 0⟩, ⟨0, 0⟩, ⟨0, 1⟩, ⟨1, 0⟩, ⟨0, 1⟩, 1, 0, 1, Pt.zero⟩ := by
  simp only [RoundedCorner.new]
  rw [c3_len1, c3_len2, if_pos (by norm_num : (0 : ℝ) < 1 ∧ (0 : ℝ) < 1)]
  norm_num [Pt.dot, Real.sqrt_one, Pt.zero]
  constructor <;> exact Pt.ext2 (by norm_num) (by norm_num)

/-- C3 counterexample: the right-angle corner `p0 = (1,0)`, `p1 = (0,0)`,
`p2 = (0,1)` with radius 1 and smoothing 0 and allowed cuts 1 produces three
cubics, refuting "radius 0 **or smoothing 0** produces exactly one zero-length
cubic". -/
theorem C3_smoothing_zero_three_cubics :
    (RoundedCorner.new ⟨1, 0⟩ ⟨0, 0⟩ ⟨0, 1⟩ (some ⟨1, 0⟩)).smoothing = 0 ∧
    ((RoundedCorner.new ⟨1, 0⟩ ⟨0, 0⟩ ⟨0, 1⟩ (some ⟨1, 0⟩)).getCubics 1 1).map
      List.length = some 3 := by
  rw [c3_corner_eq]
  refine ⟨rfl, ?_⟩
  have hd : (0 : ℝ) < (((⟨1, 0⟩ : Pt ℝ) + (⟨0, 1⟩ : Pt ℝ)) / (2 : ℝ)).length := by
    rw [Pt.length]
    apply Real.sqrt_pos.mpr
    norm_num
  have h1 : (0 : ℝ) < ((⟨1, 0⟩ : Pt ℝ) - ⟨0, 0⟩).length := by
    rw [c3_len1]
    norm_num
  have h2 : (0 : ℝ) < ((⟨0, 1⟩ : Pt ℝ) - ⟨0, 0⟩).length := by
    rw [c3_len2]
    norm_num
  simp only [RoundedCorner.getCubics]
  rw [if_neg (by norm_num [distanceEpsilon, min_self])]
  rw [Pt.getDirection_pos _ hd]
  simp only [Option.some_bind]
  rw [computeFlankingCurve, computeFlankingCurve]
  rw [Pt.getDirection_pos _ h1, Pt.getDirection_pos _ h2]
  simp only [Option.map_some', Option.some_bind, Option.map_some]
  simp

/-- Embeds the corner-construction loop of `RoundedPolygon::from_vertices`
(lines 445–456): corner `i` is built from the previous, current and next
vertex of the flat `[x0, y0, x1, y1, …]` array, with its per-vertex rounding
if provided, the global rounding otherwise. -/
def fvRoundedCorners (vertices : List ℝ) (rounding : CornerRounding)
    (perVertexRounding : List CornerRounding) : List RoundedCorner :=
  let n := vertices.length / 2
  (List.range n).map fun i =>
    let vtxRounding := (perVertexRounding.get? i).getD rounding
    let prevIndex := ((i + n - 1) % n) * 2
    let nextIndex := ((i + 1) % n) * 2
    RoundedCorner.new
      ⟨vertices.getD prevIndex 0, vertices.getD (prevIndex + 1) 0⟩
      ⟨vertices.getD (i * 2) 0, vertices.getD (i * 2 + 1) 0⟩
      ⟨vertices.getD nextIndex 0, vertices.getD (nextIndex + 1) 0⟩
      (some vtxRounding)

/-- Embeds the `cut_adjusts` computation of `RoundedPolygon::from_vertices`
(lines 458–481): for each side `ix → ix+1`, the pair
`(round_cut_ratio, cut_ratio)`. -/
def fvCutAdjusts (vertices : List ℝ) (rcs : List RoundedCorner) : List (ℝ × ℝ) :=
  let n := vertices.length / 2
  (List.range n).map fun ix =>
    let expectedRoundCut := (rcs.getD ix default).expectedRoundCut +
      (rcs.getD ((ix + 1) % n) default).expectedRoundCut
    let expectedCut := (rcs.getD ix default).expectedCut +
      (rcs.getD ((ix + 1) % n) default).expectedCut
    let vtxX := vertices.getD (ix * 2) 0
    let vtxY := vertices.getD (ix * 2 + 1) 0
    let nextVtxX := vertices.getD (((ix + 1) % n) * 2) 0
    let nextVtxY := vertices.getD (((ix + 1) % n) * 2 + 1) 0
    let sideSize := Real.sqrt ((vtxX - nextVtxX) * (vtxX - nextVtxX) +
      (vtxY - nextVtxY) * (vtxY - nextVtxY))
    if expectedRoundCut > sideSize then (sideSize / expectedRoundCut, 0)
    else if expectedCut > sideSize then
      (1, (sideSize - expectedRoundCut) / (expectedCut - expectedRoundCut))
    else (1, 1)

/-- Embeds the `allowed_cuts[delta]` computation of
`RoundedPolygon::from_vertices` (lines 484–496): corner `i`'s allowed cut
toward the side selected by `delta` (0 = the side arriving from the previous
corner, 1 = the side leaving toward the next corner), using the factor pair
`cut_adjusts[(i + n - 1 + delta) % n]`. -/
def fvAllowedCut (vertices : List ℝ) (rcs : List RoundedCorner) (i delta : ℕ) : ℝ :=
  let n := vertices.length / 2
  let ca := (fvCutAdjusts vertices rcs).getD ((i + n - 1 + delta) % n) (0, 0)
  (rcs.getD i default).expectedRoundCut * ca.1 +
    ((rcs.getD i default).expectedCut - (rcs.getD i default).expectedRoundCut) * ca.2

/-- Follows the spec's wording, not the source: for the side from corner `i` to
corner `i+1` of length `L`, with `rc` the sum of the two adjacent corners'
`expectedRoundCut` and `ec` the sum of their `expectedCut`, the factor pair is
`(L/rc, 0)` if `rc > L`, else `(1, (L-rc)/(ec-rc))` if `ec > L`, else
`(1, 1)`. -/
def specSideFactors (vertices : List ℝ) (rcs : List RoundedCorner) (i : ℕ) : ℝ × ℝ :=
  let n := vertices.length / 2
  let L := Real.sqrt ((vertices.getD (i * 2) 0 - vertices.getD (((i + 1) % n) * 2) 0) ^ 2 +
    (vertices.getD (i * 2 + 1) 0 - vertices.getD (((i + 1) % n) * 2 + 1) 0) ^ 2)
  let rc := (rcs.getD i default).expectedRoundCut +
    (rcs.getD ((i + 1) % n) default).expectedRoundCut
  let ec := (rcs.getD i default).expectedCut + (rcs.getD ((i + 1) % n) default).expectedCut
  if rc > L then (L / rc, 0)
  else if ec > L then (1, (L - rc) / (ec - rc))
  else (1, 1)

/-- Follows the spec's wording, not the source: a corner's allowed cut toward a
side is `expectedRoundCut · roundFactor + (expectedCut − expectedRoundCut) ·
smoothFactor`, using that side's factors. -/
def specAllowedCut (vertices : List ℝ) (rcs : List RoundedCorner)
    (side corner : ℕ) : ℝ :=
  (rcs.getD corner default).expectedRoundCut * (specSideFactors vertices rcs side).1 +
    ((rcs.getD corner default).expectedCut -
      (rcs.getD corner default).expectedRoundCut) * (specSideFactors vertices rcs side).2

lemma fvCutAdjusts_getD (vertices : List ℝ) (rcs : List RoundedCorner) (j : ℕ)
    (hj : j < vertices.length / 2) :
    (fvCutAdjusts vertices rcs).getD j (0, 0) = specSideFactors vertices rcs j := by
  rw [fvCutAdjusts, specSideFactors]
  rw [List.getD_eq_getElem] <;>
    simp only [List.length_map, List.length_range, List.getElem_map, List.getElem_range]
  · norm_num [pow_two]
  · exact hj

/-- C7: in `from_vertices`, each side's factor pair follows the spec's
three-case arbitration formula, and corner `i`'s two allowed cuts apply the
spec's `allowed = expectedRoundCut·roundFactor + (expectedCut −
expectedRoundCut)·smoothFactor` with the factors of the arriving side
`(i + n - 1) % n` (for `delta = 0`) and of the leaving side `i` (for
`delta = 1`). -/
theorem C7_from_vertices_cut_arbitration (vertices : List ℝ)
    (rounding : CornerRounding) (pvr : List CornerRounding) (i : ℕ)
    (hi : i < vertices.length / 2) :
    (fvCutAdjusts vertices (fvRoundedCorners vertices rounding pvr)).getD i (0, 0) =
      specSideFactors vertices (fvRoundedCorners vertices rounding pvr) i ∧
    fvAllowedCut vertices (fvRoundedCorners vertices rounding pvr) i 0 =
      specAllowedCut vertices (fvRoundedCorners vertices rounding pvr)
        ((i + vertices.length / 2 - 1) % (vertices.length / 2)) i ∧
    fvAllowedCut vertices (fvRoundedCorners vertices rounding pvr) i 1 =
      specAllowedCut vertices (fvRoundedCorners vertices rounding pvr) i i := by
  have hn : 0 < vertices.length / 2 := by omega
  refine ⟨fvCutAdjusts_getD _ _ i hi, ?_, ?_⟩
  · rw [fvAllowedCut, specAllowedCut]
    rw [show i + vertices.length / 2 - 1 + 0 = i + vertices.length / 2 - 1 by omega]
    rw [fvCutAdjusts_getD _ _ _ (Nat.mod_lt _ hn)]
  · rw [fvAllowedCut, specAllowedCut]
    rw [show (i + vertices.length / 2 - 1 + 1) % (vertices.length / 2) = i by
      rw [show i + vertices.length / 2 - 1 + 1 = i + vertices.length / 2 by omega]
      rw [Nat.add_mod_right]
      exact Nat.mod_eq_of_lt hi]
    rw [fvCutAdjusts_getD _ _ _ hi]

def wSquare : List ℝ := [0, 0, 2, 0, 2, 2, 0, 2]

/-- Witness for C7 on a concrete square with global rounding 1 at corner 0. -/
theorem C7_from_vertices_cut_arbitration_witness :
    0 < wSquare.length / 2 ∧
    ((fvCutAdjusts wSquare (fvRoundedCorners wSquare ⟨1, 0⟩ [])).getD 0 (0, 0) =
        specSideFactors wSquare (fvRoundedCorners wSquare ⟨1, 0⟩ []) 0 ∧
      fvAllowedCut wSquare (fvRoundedCorners wSquare ⟨1, 0⟩ []) 0 0 =
        specAllowedCut wSquare (fvRoundedCorners wSquare ⟨1, 0⟩ [])
          ((0 + wSquare.length / 2 - 1) % (wSquare.length / 2)) 0 ∧
      fvAllowedCut wSquare (fvRoundedCorners wSquare ⟨1, 0⟩ []) 0 1 =
        specAllowedCut wSquare (fvRoundedCorners wSquare ⟨1, 0⟩ []) 0 0) :=
  ⟨by norm_num [wSquare],
    C7_from_vertices_cut_arbitration wSquare ⟨1, 0⟩ [] 0 (by norm_num [wSquare])⟩

end

end Polymorph
